import Mathlib

/-!
Verification of the obsidian-pkm-note-recommender core against its
natural-language specification.

The development shallowly embeds the TypeScript sources:
- numbers are modelled as exact rationals (`ℚ`); a cosine-similarity value,
  which in the source is `dot / (Math.sqrt magA * Math.sqrt magB)`, is
  represented exactly as a pair `⟨c, r⟩` standing for the real number
  `c * Real.sqrt r` (see `SimVal` and the bridge lemma `SimVal.le_iff_real`);
- JavaScript `Map`s (which iterate in insertion order) are modelled as
  association lists where an update rewrites the first matching entry in
  place and an insert appends;
- `async` methods that never block are modelled as pure functions;
  thrown exceptions become `Except`;
- `Array.prototype.sort`, which is a stable sort, is modelled by
  `List.insertionSort`, which with a non-strict descending relation places
  an earlier element before any equal later element (stability is proved
  where a claim needs it);
- `Math.random()` becomes an explicit parameter in `[0, 1]`.
-/

set_option maxHeartbeats 1000000

/-! ### String helpers

JavaScript `String.prototype.includes(pat)` is substring containment,
`Array.prototype.join(', ')` concatenates with a separator, and
`String.prototype.toLowerCase()` lower-cases every character. -/

/-- Model of JavaScript `s.includes(pat)`: `pat` occurs contiguously in `s`. -/
def strIncludes (s pat : String) : Bool :=
  decide (pat.data <:+: s.data)

/-- Model of JavaScript `parts.join(", ")`. -/
def joinComma : List String → String
  | [] => ""
  | x :: xs => xs.foldl (fun acc t => acc ++ ", " ++ t) x

/-- Model of JavaScript `toLowerCase` (on the character-list view of strings). -/
def strToLower (s : String) : String :=
  ⟨s.data.map Char.toLower⟩

/-! ### Embedding value object (`src/core/domain/value-objects/embedding.ts`)

The free function `cosineSimilarity(a, b)` loops once over the two vectors
accumulating the dot product and the two squared magnitudes, throws on a
dimension mismatch, returns `0` when the product of magnitudes is zero and
`dot / (sqrt magA * sqrt magB)` otherwise. -/

/-- Dot product of two rational vectors (the loop accumulating `dotProduct`). -/
def dotQ (a b : List ℚ) : ℚ :=
  (List.zipWith (· * ·) a b).sum

/-- An exact representation of a similarity value: `⟨c, r, _⟩` stands for the
real number `c * Real.sqrt r`.  `cosineSimilarity` produces
`dot / sqrt (magA * magB)`, stored here as `⟨dot, 1 / (magA * magB)⟩`. -/
structure SimVal where
  c : ℚ
  r : ℚ
  hr : 0 ≤ r

/-- The similarity value `0` (returned when a magnitude vanishes). -/
def simZero : SimVal := ⟨0, 1, by norm_num⟩

/-- Decidable comparison of two represented reals `c₁√r₁ ≤ c₂√r₂`,
by sign analysis and squaring.  Faithfulness to the real-number comparison
used by the JavaScript `>=` and sort comparator is `SimVal.le_iff_real`. -/
def SimVal.le (x y : SimVal) : Bool :=
  if x.c < 0 then
    if 0 ≤ y.c then true
    else decide (y.c ^ 2 * y.r ≤ x.c ^ 2 * x.r)
  else
    if y.c < 0 then decide (x.c ^ 2 * x.r = 0 ∧ y.c ^ 2 * y.r = 0)
    else decide (x.c ^ 2 * x.r ≤ y.c ^ 2 * y.r)

/-- A plain rational (such as a threshold) as a similarity value: `q * √1`. -/
def SimVal.ofRat (q : ℚ) : SimVal := ⟨q, 1, by norm_num⟩

/-- Error message thrown by `cosineSimilarity` on a dimension mismatch. -/
def dimMismatchMsg (la lb : Nat) : String :=
  "Vector dimensions must match: " ++ toString la ++ " vs " ++ toString lb

/-- The value of `cosineSimilarity` on equal-dimension vectors. -/
def cosOk (a b : List ℚ) : SimVal :=
  let d := dotQ a b
  let magA := dotQ a a
  let magB := dotQ b b
  if h : magA * magB = 0 then simZero
  else
    ⟨d, 1 / (magA * magB), by
      have hsq : ∀ l : List ℚ, 0 ≤ dotQ l l := by
        intro l
        induction l with
        | nil => simp [dotQ]
        | cons x xs ih =>
          have hx : dotQ (x :: xs) (x :: xs) = x * x + dotQ xs xs := by
            simp [dotQ]
          rw [hx]
          nlinarith [mul_self_nonneg x]
      have ha : 0 ≤ magA := hsq a
      have hb : 0 ≤ magB := hsq b
      positivity⟩

/-- Model of the free function `cosineSimilarity(a, b)` from `embedding.ts`:
throws on dimension mismatch, else computes the similarity. -/
def cosineSimilarity (a b : List ℚ) : Except String SimVal :=
  if a.length ≠ b.length then .error (dimMismatchMsg a.length b.length)
  else .ok (cosOk a b)

/-! ### Local embedding store (`src/core/adapters/storage/local-embedding-store.ts`)

The store keeps a `Map<string, StoredEmbedding>` keyed by note id.  `save`
overwrites the entry at the id (or appends a fresh one, preserving
insertion order), `isStale` reports a missing record or a hash mismatch,
and `findSimilar` linearly scans the cache. -/

/-- The persisted embedding record (`StoredEmbedding` in
`embedding-store.interface.ts`); `createdAt` is a timestamp in ms. -/
structure StoredEmbedding where
  noteId : String
  notePath : String
  embedding : List ℚ
  model : String
  provider : String
  createdAt : Int
  contentHash : String
deriving DecidableEq

/-- `LocalEmbeddingStore.save`: JavaScript `Map.set` — replace the entry
with the same key in place, else append. -/
def storeSave : List StoredEmbedding → StoredEmbedding → List StoredEmbedding
  | [], e => [e]
  | x :: xs, e => if x.noteId == e.noteId then e :: xs else x :: storeSave xs e

/-- `LocalEmbeddingStore.isStale(noteId, currentContentHash)`: true when no
record exists or the stored hash differs. -/
def isStale (cache : List StoredEmbedding) (noteId currentContentHash : String) : Bool :=
  match cache.find? (fun s => s.noteId == noteId) with
  | none => true
  | some stored => stored.contentHash != currentContentHash

/-- One row of a `findSimilar` answer (`SimilarityResult`). -/
structure SimilarityResult where
  noteId : String
  notePath : String
  similarity : SimVal

/-- The comparator relation of `results.sort((a, b) => b.similarity - a.similarity)`:
`x` may come before `y` iff `x`'s similarity is at least `y`'s. -/
def simGe (x y : SimilarityResult) : Prop :=
  SimVal.le y.similarity x.similarity = true

instance : DecidableRel simGe := fun x y => by
  unfold simGe; infer_instance

/-- The accumulation loop of `findSimilar`: scan the cache in insertion
order, skip excluded ids, compute the cosine similarity (a thrown
dimension-mismatch error propagates), keep results at or above the
threshold. -/
def findSimilarAux (q : List ℚ) (threshold : ℚ) (excludeIds : List String) :
    List StoredEmbedding → List SimilarityResult → Except String (List SimilarityResult)
  | [], acc => .ok acc
  | s :: rest, acc =>
    if excludeIds.contains s.noteId then findSimilarAux q threshold excludeIds rest acc
    else
      match cosineSimilarity q s.embedding with
      | .error e => .error e
      | .ok v =>
        if SimVal.le (SimVal.ofRat threshold) v then
          findSimilarAux q threshold excludeIds rest (acc ++ [⟨s.noteId, s.notePath, v⟩])
        else findSimilarAux q threshold excludeIds rest acc

/-- `LocalEmbeddingStore.findSimilar(embedding, options)`: defaults
`limit = 10`, `threshold = 0.5`, `excludeNoteIds = []`; scan, then sort by
similarity descending (stably) and truncate to `limit`. -/
def findSimilar (cache : List StoredEmbedding) (q : List ℚ)
    (limit? : Option Nat) (threshold? : Option ℚ) (excludeIds? : Option (List String)) :
    Except String (List SimilarityResult) :=
  let limit := limit?.getD 10
  let threshold := threshold?.getD (1 / 2)
  let excludeIds := excludeIds?.getD []
  match findSimilarAux q threshold excludeIds cache [] with
  | .error e => .error e
  | .ok results => .ok ((results.insertionSort simGe).take limit)

/-! ### Retry service (`src/core/application/services/retry-service.ts`) -/

/-- The exponential-backoff branch of `calculateDelay`:
`baseDelay * 2^attempt` plus jitter `exp * jitterFactor * rand`
(`rand` models `Math.random()`), capped at `maxDelayMs`. -/
def expBackoffDelay (attempt : Nat) (baseDelayMs maxDelayMs jitterFactor rand : ℚ) : ℚ :=
  let exponentialDelay := baseDelayMs * 2 ^ attempt
  let jitter := exponentialDelay * jitterFactor * rand
  min (exponentialDelay + jitter) maxDelayMs

/-- `calculateDelay(attempt, baseDelayMs, maxDelayMs, jitterFactor, retryAfterMs)`:
a present and strictly positive server hint short-circuits to
`min(retryAfterMs + 500, maxDelayMs)` (the JavaScript guard is
`retryAfterMs && retryAfterMs > 0`, so a hint of `0` falls through);
otherwise exponential backoff with jitter. -/
def calculateDelay (attempt : Nat) (baseDelayMs maxDelayMs jitterFactor : ℚ)
    (retryAfterMs : Option ℚ) (rand : ℚ) : ℚ :=
  match retryAfterMs with
  | some v =>
    if 0 < v then min (v + 500) maxDelayMs
    else expBackoffDelay attempt baseDelayMs maxDelayMs jitterFactor rand
  | none => expBackoffDelay attempt baseDelayMs maxDelayMs jitterFactor rand

/-- The batch-splitting loop of `processBatches`
(`for i = 0; i < items.length; i += batchSize: batches.push(items.slice(i, i + batchSize))`).
The source loops forever when `batchSize = 0`; that case is mapped to `[]`
here and every theorem assumes `0 < batchSize`. -/
def chunkBatches (batchSize : Nat) (items : List α) : List (List α) :=
  if _h : batchSize = 0 then []
  else
    match items with
    | [] => []
    | x :: xs =>
      (x :: xs).take batchSize :: chunkBatches batchSize ((x :: xs).drop batchSize)
termination_by items.length
decreasing_by
  simp only [List.length_drop, List.length_cons]
  omega

/-- The mutable state of the `processBatches` loop: accumulated per-batch
results, recorded errors with their batch index, the `processed` counter,
and the trace of `onProgress(processed, total)` calls. -/
structure BatchRunState (R E : Type) where
  results : List R
  errors : List (Nat × E)
  processed : Nat
  progressLog : List (Nat × Nat)

/-- The aggregate result of `processBatches` (`BatchGroupResult`). -/
structure BatchGroupResult (R E : Type) where
  results : List R
  errors : List (Nat × E)
  successCount : Nat
  failureCount : Nat
  total : Nat
deriving DecidableEq

/-- One iteration of the `processBatches` loop on batch `(batchIndex, batch)`:
`executeWithRetry(() => processFn(batch))` with its retries exhausted is
modelled by `processFn` returning `Except.error`; either way the batch's
items are counted as processed and progress is reported. -/
def processBatchStep (totalItems : Nat) (processFn : List α → Except E R)
    (st : BatchRunState R E) (p : Nat × List α) : BatchRunState R E :=
  let st' :=
    match processFn p.2 with
    | .ok r => { st with results := st.results ++ [r], processed := st.processed + p.2.length }
    | .error e =>
      { st with errors := st.errors ++ [(p.1, e)], processed := st.processed + p.2.length }
  { st' with progressLog := st'.progressLog ++ [(st'.processed, totalItems)] }

/-- `processBatches(options)`: split into batches, process each batch with
retry, record failures per batch and continue, then return the aggregate
(`successCount`/`failureCount` are the documented approximations
`results.length * batchSize` and `errors.length * batchSize`).  The
`AbortSignal` is modelled by the constant flag `aborted`; the progress
trace is returned alongside. -/
def processBatches (items : List α) (batchSize : Nat) (processFn : List α → Except E R)
    (aborted : Bool) : BatchGroupResult R E × List (Nat × Nat) :=
  let batches := chunkBatches batchSize items
  let init : BatchRunState R E := ⟨[], [], 0, []⟩
  let st := if aborted then init
    else batches.enum.foldl (processBatchStep items.length processFn) init
  (⟨st.results, st.errors, st.results.length * batchSize, st.errors.length * batchSize,
    items.length⟩, st.progressLog)

/-! ### Recommend-notes use case
(`src/core/application/use-cases/recommend-notes.ts`, with the note
repository given the semantics of `VaultAdapter`
(`src/core/adapters/obsidian/vault-adapter.ts`) — the composition wired in
`main.ts`). -/

/-- The domain `Note` entity, restricted to the fields the use case reads.
The entity invariant (enforced by `Note.normalizeTags`) is that tags are
trimmed, lower-cased, hash-stripped and deduplicated; theorems that rely on
it take it as an explicit hypothesis. -/
structure Note where
  id : String
  title : String
  filePath : String
  tags : List String
deriving DecidableEq

/-- `INoteRepository.findById` (`VaultAdapter`: resolve the file by id). -/
def findById (notes : List Note) (id : String) : Option Note :=
  notes.find? (fun n => n.id == id)

/-- `VaultAdapter.findByTags(tags)`: keep the notes whose (lower-cased)
tag list contains EVERY requested tag — `tags.every(...)`, not
at-least-one. -/
def findByTags (notes : List Note) (tags : List String) : List Note :=
  notes.filter (fun note =>
    let noteTags := note.tags.map strToLower
    tags.all (fun tag => noteTags.contains (strToLower tag)))

/-- The `RecommendationItem` response DTO. -/
structure RecommendationItem where
  noteId : String
  title : String
  filePath : String
  score : ℚ
  reasons : List String
  matchedTags : Option (List String)
deriving DecidableEq

/-- The `RecommendNotesResponse` DTO. -/
structure RecommendNotesResponse where
  success : Bool
  recommendations : List RecommendationItem
  sourceNoteId : String
  error : Option String
deriving DecidableEq

/-- The `RecommendNotesRequest` DTO; `none` fields take the documented
defaults inside `execute`. -/
structure RecommendNotesRequest where
  sourceNoteId : String
  maxResults : Option Nat
  useGraphConnections : Option Bool
  useSemanticSimilarity : Option Bool
  semanticThreshold : Option ℚ
  minScore : Option ℚ

/-- `recommendations.get(id)` on the insertion-ordered working map. -/
def rmFind (m : List RecommendationItem) (id : String) : Option RecommendationItem :=
  m.find? (fun x => x.noteId == id)

/-- In-place mutation of the (first) entry whose key matches `it.noteId`
(the source mutates the object returned by `Map.get`). -/
def rmSet : List RecommendationItem → RecommendationItem → List RecommendationItem
  | [], _ => []
  | x :: xs, it => if x.noteId == it.noteId then it :: xs else x :: rmSet xs it

/-- The reason string `Shared tags: ${matchedTags.join(', ')}`. -/
def sharedTagsReason (matched : List String) : String :=
  "Shared tags: " ++ joinComma matched

/-- The reason string for a graph connection. -/
def directLinkReason : String := "Direct link in knowledge graph"

/-- The reason string `Semantic similarity: ${similarityPercent}%`, where
`similarityPercent = Math.round(semanticScore * 100)` (JavaScript rounds
half toward positive infinity: `⌊x + 1/2⌋`). -/
def semanticReason (semanticScore : ℚ) : String :=
  "Semantic similarity: " ++ toString (Int.floor (semanticScore * 100 + 1 / 2)) ++ "%"

/-- The loop body of `addTagBasedRecommendations` for one related note. -/
def tagStep (sourceNote : Note) (m : List RecommendationItem) (note : Note) :
    List RecommendationItem :=
  if note.id == sourceNote.id then m
  else
    let matchedTags := note.tags.filter (fun tag => sourceNote.tags.contains tag)
    let tagScore : ℚ := (matchedTags.length : ℚ) / (max sourceNote.tags.length 1 : ℕ)
    match rmFind m note.id with
    | some existing =>
      rmSet m
        { existing with
          score := max existing.score tagScore
          matchedTags := some matchedTags
          reasons :=
            if existing.reasons.any (fun r => strIncludes r "Shared tags") then
              existing.reasons
            else existing.reasons ++ [sharedTagsReason matchedTags] }
    | none =>
      m ++ [⟨note.id, note.title, note.filePath, tagScore,
        [sharedTagsReason matchedTags], some matchedTags⟩]

/-- `addTagBasedRecommendations(sourceNote, recommendations)`: no source
tags means no contribution; otherwise fold over
`noteRepository.findByTags(sourceTags)`. -/
def addTagBasedRecommendations (notes : List Note) (sourceNote : Note)
    (m : List RecommendationItem) : List RecommendationItem :=
  if sourceNote.tags.isEmpty then m
  else (findByTags notes sourceNote.tags).foldl (tagStep sourceNote) m

/-- The loop body of `addGraphBasedRecommendations` for one connected node
id: resolve the note (skip unresolvable nodes and the source), then merge
with the fixed `graphScore = 0.8`. -/
def graphStep (notes : List Note) (sourceNote : Note) (m : List RecommendationItem)
    (nodeId : String) : List RecommendationItem :=
  match findById notes nodeId with
  | none => m
  | some note =>
    if note.id == sourceNote.id then m
    else
      let graphScore : ℚ := 8 / 10
      match rmFind m note.id with
      | some existing =>
        rmSet m
          { existing with
            score := max existing.score graphScore
            reasons :=
              if existing.reasons.any (fun r => strIncludes r "Direct link") then
                existing.reasons
              else existing.reasons ++ [directLinkReason] }
      | none =>
        m ++ [⟨note.id, note.title, note.filePath, graphScore, [directLinkReason], none⟩]

/-- `addGraphBasedRecommendations`: fold over
`graphRepository.findConnectedNodes(sourceNote.id)`. -/
def addGraphBasedRecommendations (notes : List Note) (graph : String → List String)
    (sourceNote : Note) (m : List RecommendationItem) : List RecommendationItem :=
  (graph sourceNote.id).foldl (graphStep notes sourceNote) m

/-- One semantic similarity hit as returned by
`IEmbeddingServiceForRecommendations.findSimilarNotes` (similarities are
plain numbers at this interface). -/
structure SimilarityHit where
  noteId : String
  notePath : String
  similarity : ℚ
deriving DecidableEq

/-- The loop body of `addSemanticRecommendations` for one similarity hit:
skip the source and unresolvable notes; boost an existing entry by
`min(1, existing.score + semanticScore * 0.3)` merged with `max`, or insert
a fresh entry scored by the raw similarity. -/
def semStep (notes : List Note) (sourceNote : Note) (m : List RecommendationItem)
    (result : SimilarityHit) : List RecommendationItem :=
  if result.noteId == sourceNote.id then m
  else
    match findById notes result.noteId with
    | none => m
    | some note =>
      let semanticScore := result.similarity
      match rmFind m note.id with
      | some existing =>
        let boostedScore := min 1 (existing.score + semanticScore * (3 / 10))
        rmSet m
          { existing with
            score := max existing.score boostedScore
            reasons :=
              if existing.reasons.any (fun r => strIncludes r "Semantic") then
                existing.reasons
              else existing.reasons ++ [semanticReason semanticScore] }
      | none =>
        m ++ [⟨note.id, note.title, note.filePath, semanticScore,
          [semanticReason semanticScore], none⟩]

/-- `addSemanticRecommendations`: the `try/catch` around
`findSimilarNotes` swallows a thrown error, leaving the working map
untouched; on success fold over the hits. -/
def addSemanticRecommendations (notes : List Note) (sourceNote : Note)
    (m : List RecommendationItem) (similarNotes : Except String (List SimilarityHit)) :
    List RecommendationItem :=
  match similarNotes with
  | .error _ => m
  | .ok results => results.foldl (semStep notes sourceNote) m

/-- The embedding service as seen through
`IEmbeddingServiceForRecommendations`: `isReady()` plus
`findSimilarNotes(noteId, {limit, threshold})`, which may throw. -/
structure EmbeddingSvc where
  ready : Bool
  findSimilarNotes : String → Nat → ℚ → Except String (List SimilarityHit)

/-- The collaborators of `RecommendNotesUseCase`: the note repository
(a vault of notes), the graph repository (`findConnectedNodes`), and the
optional embedding service. -/
structure RecommendEnv where
  notes : List Note
  graph : String → List String
  svc : Option EmbeddingSvc

/-- The comparator relation of `.sort((a, b) => b.score - a.score)`. -/
def scoreGe (x y : RecommendationItem) : Prop :=
  y.score ≤ x.score

instance : DecidableRel scoreGe := fun x y => by
  unfold scoreGe; infer_instance

instance : IsTotal RecommendationItem scoreGe :=
  ⟨fun x y => le_total y.score x.score⟩

instance : IsTrans RecommendationItem scoreGe :=
  ⟨fun _ _ _ hxy hyz => le_trans hyz hxy⟩

/-- `RecommendNotesUseCase.execute(request)`: resolve the source note
(typed failure if absent), run the tag strategy, then optionally the graph
and semantic strategies, then filter out the source and low scores, sort by
score descending (stable) and truncate to `maxResults`. -/
def execute (env : RecommendEnv) (request : RecommendNotesRequest) :
    RecommendNotesResponse :=
  let maxResults := request.maxResults.getD 10
  let useGraphConnections := request.useGraphConnections.getD false
  let useSemanticSimilarity := request.useSemanticSimilarity.getD false
  let semanticThreshold := request.semanticThreshold.getD (1 / 2)
  let minScore := request.minScore.getD 0
  match findById env.notes request.sourceNoteId with
  | none => ⟨false, [], request.sourceNoteId, some "Source note not found"⟩
  | some sourceNote =>
    let m1 := addTagBasedRecommendations env.notes sourceNote []
    let m2 :=
      if useGraphConnections then
        addGraphBasedRecommendations env.notes env.graph sourceNote m1
      else m1
    let m3 :=
      match env.svc with
      | some svc =>
        if useSemanticSimilarity && svc.ready then
          addSemanticRecommendations env.notes sourceNote m2
            (svc.findSimilarNotes sourceNote.id maxResults semanticThreshold)
        else m2
      | none => m2
    let sortedRecommendations :=
      (((m3.filter (fun r => r.noteId != request.sourceNoteId)).filter
          (fun r => minScore ≤ r.score)).insertionSort scoreGe).take maxResults
    ⟨true, sortedRecommendations, request.sourceNoteId, none⟩

/-! ### Derived items and concrete witness data -/

/-- Two similarity results with equal similarity values (in the represented
reals): the equivalence classes of the sort comparator. -/
def eqvSim (v : SimVal) (x : SimilarityResult) : Bool :=
  SimVal.le x.similarity v && SimVal.le v x.similarity

/-- The item the tag strategy inserts fresh for a related note. -/
def freshTagItem (src c : Note) : RecommendationItem :=
  ⟨c.id, c.title, c.filePath,
    ((c.tags.filter (fun tag => src.tags.contains tag)).length : ℚ) /
      ((max src.tags.length 1 : ℕ) : ℚ),
    [sharedTagsReason (c.tags.filter (fun tag => src.tags.contains tag))],
    some (c.tags.filter (fun tag => src.tags.contains tag))⟩

/-- The item the graph strategy inserts fresh for a connected note. -/
def freshGraphItem (c : Note) : RecommendationItem :=
  ⟨c.id, c.title, c.filePath, 8 / 10, [directLinkReason], none⟩

/-- The graph strategy's merge of an existing entry: score becomes
`max(existing, 0.8)` and a direct-link reason is appended unless one is
already present. -/
def mergeGraphItem (e : RecommendationItem) : RecommendationItem :=
  { e with
    score := max e.score (8 / 10)
    reasons :=
      if e.reasons.any (fun r => strIncludes r "Direct link") then e.reasons
      else e.reasons ++ [directLinkReason] }

/-- A concrete stored record for the C5 witness. -/
def c5Record : StoredEmbedding :=
  ⟨"note-1", "note-1.md", [1, 2], "text-embedding-3-small", "openai", 0, "hash1"⟩

/-- Concrete inputs for the C2 witness. -/
def c2Notes : List Note :=
  [⟨"202401010000", "S", "s.md", []⟩, ⟨"202401010001", "C", "c.md", []⟩]

/-- A working-map entry with score `0.5` for the C2 witness. -/
def c2Entry : RecommendationItem :=
  ⟨"202401010001", "C", "c.md", 1 / 2, ["Direct link in knowledge graph"], none⟩

/-- Concrete environments for the C7 witness. -/
def c7Src : Note := ⟨"202401010000", "S", "s.md", []⟩

/-- An embedding service whose `findSimilarNotes` always throws. -/
def c7Svc : EmbeddingSvc := ⟨true, fun _ _ _ => .error "boom"⟩

/-- An environment whose semantic strategy always throws. -/
def c7Env : RecommendEnv := ⟨[c7Src], fun _ => [], some c7Svc⟩

/-- An environment in which the source note cannot be resolved. -/
def c7EnvMissing : RecommendEnv := ⟨[], fun _ => [], none⟩

/-- A request enabling semantic similarity for the source note. -/
def c7Req : RecommendNotesRequest :=
  ⟨"202401010000", none, none, some true, none, none⟩

/-- 25 items for the C3 witness (three batches of 10, 10 and 5). -/
def c3Items : List Nat :=
  [0, 1, 2, 3, 4, 5, 6, 7, 8, 9, 10, 11, 12, 13, 14, 15, 16, 17, 18, 19,
   20, 21, 22, 23, 24]

/-- A per-batch operation that fails (after exhausted retries) exactly on
the batch containing item 10 — the second batch. -/
def c3F : List Nat → Except String Nat :=
  fun b => if b.contains 10 then .error "rate limit" else .ok b.length

/-- Two stored records for the C6 witness: one aligned with the query, one
opposite to it. -/
def c6Cache : List StoredEmbedding :=
  [⟨"A", "a.md", [1, 0], "m", "p", 0, "ha"⟩,
   ⟨"B", "b.md", [-1, 0], "m", "p", 0, "hb"⟩]

/-- Concrete notes for the C8 witness: source and candidate sharing tag
`a`, so the candidate's tag score is 1. -/
def c8Src : Note := ⟨"202401010000", "S", "s.md", ["a"]⟩

/-- The candidate note of the C8 witness. -/
def c8Cand : Note := ⟨"202401010001", "C", "c.md", ["a"]⟩

/-- The environment of the C8 witness (no graph links, no service). -/
def c8Env : RecommendEnv := ⟨[c8Src, c8Cand], fun _ => [], none⟩

/-- The request of the C8 witness. -/
def c8Req : RecommendNotesRequest :=
  ⟨"202401010000", none, none, none, none, none⟩

/-- The C1 witness source note (tags `{a, b}`). -/
def c1Src : Note := ⟨"202401010000", "S", "s.md", ["a", "b"]⟩

/-- The C1 witness candidate holding all source tags. -/
def c1Cand : Note := ⟨"202401010001", "C", "c.md", ["a", "b", "c"]⟩

/-- The C1 witness graph-only note (no tags). -/
def c1G : Note := ⟨"202401010002", "G", "g.md", []⟩

/-- The C1 witness partial-overlap note (shares only `a`). -/
def c1Part : Note := ⟨"202401010003", "P", "p.md", ["a"]⟩

/-- The C1 witness repository. -/
def c1Notes : List Note := [c1Src, c1Cand, c1G, c1Part]

/-- The C1 witness graph: the source links to the graph-only note and to
the candidate (the candidate is thus scored by both strategies). -/
def c1Graph : String → List String := fun _ => ["202401010002", "202401010001"]

/-! ## Infrastructure lemmas -/

/-- `SimVal.le` computes exactly the comparison of the represented real
numbers `c * √r`.  This justifies using it for the JavaScript `>=` test
against the threshold and for the sort comparator. -/
theorem SimVal.le_iff_real (x y : SimVal) :
    SimVal.le x y = true ↔
      (x.c : ℝ) * Real.sqrt (x.r : ℝ) ≤ (y.c : ℝ) * Real.sqrt (y.r : ℝ) := by
  obtain ⟨a, p, hp⟩ := x
  obtain ⟨b, q, hq⟩ := y
  have hpR : (0 : ℝ) ≤ (p : ℝ) := by exact_mod_cast hp
  have hqR : (0 : ℝ) ≤ (q : ℝ) := by exact_mod_cast hq
  have hsp : (0 : ℝ) ≤ Real.sqrt (p : ℝ) := Real.sqrt_nonneg _
  have hsq : (0 : ℝ) ≤ Real.sqrt (q : ℝ) := Real.sqrt_nonneg _
  have hA2 : ((a : ℝ) * Real.sqrt (p : ℝ)) ^ 2 = (a : ℝ) ^ 2 * (p : ℝ) := by
    rw [mul_pow, Real.sq_sqrt hpR]
  have hB2 : ((b : ℝ) * Real.sqrt (q : ℝ)) ^ 2 = (b : ℝ) ^ 2 * (q : ℝ) := by
    rw [mul_pow, Real.sq_sqrt hqR]
  simp only [SimVal.le]
  split_ifs with h1 h2 h3
  · -- a < 0, 0 ≤ b
    have haR : (a : ℝ) < 0 := by exact_mod_cast h1
    have hbR : (0 : ℝ) ≤ (b : ℝ) := by exact_mod_cast h2
    have hA : (a : ℝ) * Real.sqrt (p : ℝ) ≤ 0 :=
      mul_nonpos_iff.mpr (Or.inr ⟨le_of_lt haR, hsp⟩)
    have hB : (0 : ℝ) ≤ (b : ℝ) * Real.sqrt (q : ℝ) := mul_nonneg hbR hsq
    simp only [true_iff]
    linarith
  · -- a < 0, b < 0
    have haR : (a : ℝ) < 0 := by exact_mod_cast h1
    have hbR : (b : ℝ) < 0 := by exact_mod_cast (lt_of_not_le h2)
    rw [decide_eq_true_eq]
    constructor
    · intro h
      have hRq : (b : ℝ) ^ 2 * (q : ℝ) ≤ (a : ℝ) ^ 2 * (p : ℝ) := by
        exact_mod_cast h
      have hnB : (0 : ℝ) ≤ -((b : ℝ) * Real.sqrt (q : ℝ)) := by
        have := mul_nonneg (le_of_lt (neg_pos.mpr hbR)) hsq
        linarith [this]
      have hnA : (0 : ℝ) ≤ -((a : ℝ) * Real.sqrt (p : ℝ)) := by
        have := mul_nonneg (le_of_lt (neg_pos.mpr haR)) hsp
        linarith [this]
      have hsqle : (-((b : ℝ) * Real.sqrt (q : ℝ))) ^ 2 ≤
          (-((a : ℝ) * Real.sqrt (p : ℝ))) ^ 2 := by
        rw [neg_sq, neg_sq, hA2, hB2]
        exact hRq
      have := le_of_pow_le_pow_left₀ (two_ne_zero) hnA hsqle
      linarith
    · intro h
      have hnle : -((b : ℝ) * Real.sqrt (q : ℝ)) ≤ -((a : ℝ) * Real.sqrt (p : ℝ)) := by
        linarith
      have hnB : (0 : ℝ) ≤ -((b : ℝ) * Real.sqrt (q : ℝ)) := by
        have := mul_nonneg (le_of_lt (neg_pos.mpr hbR)) hsq
        linarith [this]
      have := pow_le_pow_left₀ hnB hnle 2
      rw [neg_sq, neg_sq, hA2, hB2] at this
      exact_mod_cast this
  · -- 0 ≤ a, b < 0
    have haR : (0 : ℝ) ≤ (a : ℝ) := by exact_mod_cast (le_of_not_lt h1)
    have hbR : (b : ℝ) < 0 := by exact_mod_cast h3
    have hA : (0 : ℝ) ≤ (a : ℝ) * Real.sqrt (p : ℝ) := mul_nonneg haR hsp
    have hB : (b : ℝ) * Real.sqrt (q : ℝ) ≤ 0 :=
      mul_nonpos_iff.mpr (Or.inr ⟨le_of_lt hbR, hsq⟩)
    rw [decide_eq_true_eq]
    constructor
    · rintro ⟨hA0, hB0⟩
      have hA0R : (a : ℝ) ^ 2 * (p : ℝ) = 0 := by exact_mod_cast hA0
      have hB0R : (b : ℝ) ^ 2 * (q : ℝ) = 0 := by exact_mod_cast hB0
      have hAz : (a : ℝ) * Real.sqrt (p : ℝ) = 0 := by
        have h1' : ((a : ℝ) * Real.sqrt (p : ℝ)) ^ 2 = 0 := by rw [hA2]; exact hA0R
        nlinarith [sq_nonneg ((a : ℝ) * Real.sqrt (p : ℝ))]
      have hBz : (b : ℝ) * Real.sqrt (q : ℝ) = 0 := by
        have h2' : ((b : ℝ) * Real.sqrt (q : ℝ)) ^ 2 = 0 := by rw [hB2]; exact hB0R
        nlinarith [sq_nonneg ((b : ℝ) * Real.sqrt (q : ℝ))]
      rw [hAz, hBz]
    · intro h
      have hAz : (a : ℝ) * Real.sqrt (p : ℝ) = 0 := le_antisymm (le_trans h hB) hA
      have hBz : (b : ℝ) * Real.sqrt (q : ℝ) = 0 := le_antisymm hB (le_trans hA h)
      constructor
      · have : (a : ℝ) ^ 2 * (p : ℝ) = 0 := by rw [← hA2, hAz]; ring
        exact_mod_cast this
      · have : (b : ℝ) ^ 2 * (q : ℝ) = 0 := by rw [← hB2, hBz]; ring
        exact_mod_cast this
  · -- 0 ≤ a, 0 ≤ b
    have haR : (0 : ℝ) ≤ (a : ℝ) := by exact_mod_cast (le_of_not_lt h1)
    have hbR : (0 : ℝ) ≤ (b : ℝ) := by exact_mod_cast (le_of_not_lt h3)
    have hA : (0 : ℝ) ≤ (a : ℝ) * Real.sqrt (p : ℝ) := mul_nonneg haR hsp
    have hB : (0 : ℝ) ≤ (b : ℝ) * Real.sqrt (q : ℝ) := mul_nonneg hbR hsq
    rw [decide_eq_true_eq]
    constructor
    · intro h
      have hRq : (a : ℝ) ^ 2 * (p : ℝ) ≤ (b : ℝ) ^ 2 * (q : ℝ) := by exact_mod_cast h
      have hsqle : ((a : ℝ) * Real.sqrt (p : ℝ)) ^ 2 ≤ ((b : ℝ) * Real.sqrt (q : ℝ)) ^ 2 := by
        rw [hA2, hB2]; exact hRq
      exact le_of_pow_le_pow_left₀ (two_ne_zero) hB hsqle
    · intro h
      have := pow_le_pow_left₀ hA h 2
      rw [hA2, hB2] at this
      exact_mod_cast this

/-- `SimVal.le` is total, as the comparison of real numbers is. -/
theorem SimVal.le_total' (x y : SimVal) : SimVal.le x y = true ∨ SimVal.le y x = true := by
  rcases le_total ((x.c : ℝ) * Real.sqrt (x.r : ℝ)) ((y.c : ℝ) * Real.sqrt (y.r : ℝ)) with h | h
  · exact Or.inl ((SimVal.le_iff_real x y).mpr h)
  · exact Or.inr ((SimVal.le_iff_real y x).mpr h)

/-- `SimVal.le` is transitive, as the comparison of real numbers is. -/
theorem SimVal.le_trans' {x y z : SimVal} (hxy : SimVal.le x y = true)
    (hyz : SimVal.le y z = true) : SimVal.le x z = true :=
  (SimVal.le_iff_real x z).mpr
    (le_trans ((SimVal.le_iff_real x y).mp hxy) ((SimVal.le_iff_real y z).mp hyz))

instance : IsTotal SimilarityResult simGe :=
  ⟨fun x y => by
    unfold simGe
    exact SimVal.le_total' y.similarity x.similarity⟩

instance : IsTrans SimilarityResult simGe :=
  ⟨fun _ _ _ hxy hyz => SimVal.le_trans' hyz hxy⟩

/-- `rmFind` returning an entry means the entry is keyed by the id. -/
theorem rmFind_some_id {m : List RecommendationItem} {id : String}
    {e : RecommendationItem} (h : rmFind m id = some e) : e.noteId = id := by
  have := List.find?_some h
  simpa using this

/-- A found entry is a member of the map. -/
theorem rmFind_some_mem {m : List RecommendationItem} {id : String}
    {e : RecommendationItem} (h : rmFind m id = some e) : e ∈ m :=
  List.mem_of_find?_eq_some h

/-- Replacing the entry at `it.noteId` makes it the one found there
(provided some entry with that key was present). -/
theorem rmFind_rmSet_self {m : List RecommendationItem} {it e : RecommendationItem}
    (h : rmFind m it.noteId = some e) : rmFind (rmSet m it) it.noteId = some it := by
  induction m with
  | nil => simp [rmFind] at h
  | cons x xs ih =>
    by_cases hx : x.noteId == it.noteId
    · simp [rmSet, hx, rmFind, List.find?]
    · have hfind : rmFind (x :: xs) it.noteId = rmFind xs it.noteId := by
        simp [rmFind, List.find?, hx]
      rw [hfind] at h
      have : rmSet (x :: xs) it = x :: rmSet xs it := by simp [rmSet, hx]
      rw [this]
      have : rmFind (x :: rmSet xs it) it.noteId = rmFind (rmSet xs it) it.noteId := by
        simp [rmFind, List.find?, hx]
      rw [this]
      exact ih h

/-- Replacing the entry at `it.noteId` leaves lookups at other keys alone. -/
theorem rmFind_rmSet_ne {m : List RecommendationItem} {it : RecommendationItem}
    {id : String} (h : id ≠ it.noteId) : rmFind (rmSet m it) id = rmFind m id := by
  induction m with
  | nil => simp [rmSet]
  | cons x xs ih =>
    by_cases hx : x.noteId == it.noteId
    · have hxid : ¬(x.noteId == id) := by
        simp only [beq_iff_eq] at hx ⊢
        rw [hx]
        exact fun hc => h hc.symm
      have hit : ¬(it.noteId == id) := by
        simp only [beq_iff_eq]
        exact fun hc => h hc.symm
      simp [rmSet, hx, rmFind, List.find?, hxid, hit]
    · by_cases hxi : x.noteId == id
      · simp [rmSet, hx, rmFind, List.find?, hxi]
      · simp only [rmSet, hx, if_false, Bool.false_eq_true]
        have h1 : rmFind (x :: rmSet xs it) id = rmFind (rmSet xs it) id := by
          simp [rmFind, List.find?, hxi]
        have h2 : rmFind (x :: xs) id = rmFind xs id := by
          simp [rmFind, List.find?, hxi]
        rw [h1, h2, ih]

/-- Appending entries does not disturb a successful lookup. -/
theorem rmFind_append_some {m l : List RecommendationItem} {id : String}
    {e : RecommendationItem} (h : rmFind m id = some e) :
    rmFind (m ++ l) id = some e := by
  unfold rmFind at h ⊢
  rw [List.find?_append, h]
  rfl

/-- A lookup that missed in `m` continues into the appended part. -/
theorem rmFind_append_none {m l : List RecommendationItem} {id : String}
    (h : rmFind m id = none) : rmFind (m ++ l) id = rmFind l id := by
  unfold rmFind at h ⊢
  rw [List.find?_append, h]
  rfl

/-- Members of the updated map come from the old map or are the update. -/
theorem mem_rmSet {m : List RecommendationItem} {it x : RecommendationItem}
    (h : x ∈ rmSet m it) : x ∈ m ∨ x = it := by
  induction m with
  | nil => simp [rmSet] at h
  | cons y ys ih =>
    by_cases hy : y.noteId == it.noteId
    · simp only [rmSet, hy, if_true] at h
      rcases List.mem_cons.mp h with h | h
      · exact Or.inr h
      · exact Or.inl (List.mem_cons_of_mem _ h)
    · simp only [rmSet, hy, if_false, Bool.false_eq_true] at h
      rcases List.mem_cons.mp h with h | h
      · exact Or.inl (h ▸ List.mem_cons_self _ _)
      · rcases ih h with h | h
        · exact Or.inl (List.mem_cons_of_mem _ h)
        · exact Or.inr h

/-- After `save`, the record found at the saved id is the saved record. -/
theorem find?_storeSave_self (cache : List StoredEmbedding) (e : StoredEmbedding) :
    (storeSave cache e).find? (fun s => s.noteId == e.noteId) = some e := by
  induction cache with
  | nil => simp [storeSave]
  | cons x xs ih =>
    by_cases hx : x.noteId == e.noteId
    · simp [storeSave, hx]
    · simp only [storeSave, hx, if_false, Bool.false_eq_true]
      rw [List.find?_cons_of_neg _ (by simpa using hx)]
      exact ih

/-- Claim C5 — staleness check.  `isStale(noteId, currentHash)` is true
exactly when no record is stored at the id or the stored record's hash
differs; it is false immediately after `save` of a record with that id and
hash, and true again at any other hash. -/
theorem claim_C5_staleness (cache : List StoredEmbedding)
    (noteId currentHash otherHash : String) (e : StoredEmbedding)
    (hother : otherHash ≠ e.contentHash) :
    (isStale cache noteId currentHash = true ↔
      cache.find? (fun s => s.noteId == noteId) = none ∨
      ∃ stored, cache.find? (fun s => s.noteId == noteId) = some stored ∧
        stored.contentHash ≠ currentHash) ∧
    isStale (storeSave cache e) e.noteId e.contentHash = false ∧
    isStale (storeSave cache e) e.noteId otherHash = true := by
  refine ⟨?_, ?_, ?_⟩
  · unfold isStale
    cases hfind : cache.find? (fun s => s.noteId == noteId) with
    | none => simp
    | some stored =>
      simp only [hfind, bne_iff_ne, ne_eq]
      constructor
      · intro h
        exact Or.inr ⟨stored, rfl, h⟩
      · rintro (h | ⟨s, hs, hne⟩)
        · exact absurd h (by simp)
        · obtain rfl : stored = s := Option.some.inj hs
          exact hne
  · unfold isStale
    rw [find?_storeSave_self]
    simp
  · unfold isStale
    rw [find?_storeSave_self]
    simpa using fun h => hother h.symm

/-- Claim C4, counterexample.  A rate-limit error can carry the
server-supplied hint `retryAfterMs = 0` (e.g. `normalizeError` parsing
`"retry after: 0"` on a 429 yields `0 * 1000 = 0`); the guard
`retryAfterMs && retryAfterMs > 0` then falls through to exponential
backoff, so with `baseDelayMs = 1000`, `maxDelayMs = 30000` and zero
jitter the delay is `1000`, not the claimed `min(0 + 500, 30000) = 500`. -/
theorem claim_C4_counterexample :
    calculateDelay 0 1000 30000 (1 / 5) (some 0) 0 ≠ min ((0 : ℚ) + 500) 30000 := by
  norm_num [calculateDelay, expBackoffDelay]

/-- Claim C4, amended — retry delay formula.  For a strictly positive
server-supplied retry-after hint the delay is `min(hint + 500, maxDelayMs)`
(a hint of `0` or less is ignored and behaves as no hint); otherwise the
delay is `baseDelayMs * 2^attempt` plus at most a `jitterFactor` fraction
of that value in random jitter, capped at `maxDelayMs`. -/
theorem claim_C4_amended (attempt : Nat) (baseDelayMs maxDelayMs jitterFactor rand : ℚ)
    (hbase : 0 ≤ baseDelayMs) (hjf : 0 ≤ jitterFactor)
    (hr0 : 0 ≤ rand) (hr1 : rand ≤ 1) :
    (∀ v : ℚ, 0 < v →
      calculateDelay attempt baseDelayMs maxDelayMs jitterFactor (some v) rand =
        min (v + 500) maxDelayMs) ∧
    (∀ v : ℚ, v ≤ 0 →
      calculateDelay attempt baseDelayMs maxDelayMs jitterFactor (some v) rand =
        calculateDelay attempt baseDelayMs maxDelayMs jitterFactor none rand) ∧
    (∃ jitter : ℚ, 0 ≤ jitter ∧ jitter ≤ jitterFactor * (baseDelayMs * 2 ^ attempt) ∧
      calculateDelay attempt baseDelayMs maxDelayMs jitterFactor none rand =
        min (baseDelayMs * 2 ^ attempt + jitter) maxDelayMs) := by
  refine ⟨?_, ?_, ?_⟩
  · intro v hv
    simp [calculateDelay, hv]
  · intro v hv
    simp [calculateDelay, not_lt.mpr hv]
  · refine ⟨baseDelayMs * 2 ^ attempt * jitterFactor * rand, ?_, ?_, ?_⟩
    · have h2 : (0 : ℚ) ≤ 2 ^ attempt := by positivity
      positivity
    · have hexp : (0 : ℚ) ≤ baseDelayMs * 2 ^ attempt := by positivity
      calc baseDelayMs * 2 ^ attempt * jitterFactor * rand
          ≤ baseDelayMs * 2 ^ attempt * jitterFactor * 1 := by
            apply mul_le_mul_of_nonneg_left hr1
            positivity
        _ = jitterFactor * (baseDelayMs * 2 ^ attempt) := by ring
    · simp [calculateDelay, expBackoffDelay]

/-- Unfolding `chunkBatches` on a non-empty list with positive batch size. -/
theorem chunkBatches_cons (batchSize : Nat) (x : α) (xs : List α)
    (h : batchSize ≠ 0) :
    chunkBatches batchSize (x :: xs) =
      (x :: xs).take batchSize :: chunkBatches batchSize ((x :: xs).drop batchSize) := by
  rw [chunkBatches]
  simp [h]

/-- `chunkBatches` on the empty list. -/
theorem chunkBatches_nil (batchSize : Nat) :
    chunkBatches batchSize ([] : List α) = [] := by
  rw [chunkBatches]
  split <;> rfl

/-- The batches concatenate back to the items (batch size positive). -/
theorem chunkBatches_flatten (batchSize : Nat) (h : batchSize ≠ 0) :
    ∀ items : List α, (chunkBatches batchSize items).flatten = items
  | [] => by simp [chunkBatches_nil]
  | x :: xs => by
    rw [chunkBatches_cons _ _ _ h]
    have htail := chunkBatches_flatten batchSize h ((x :: xs).drop batchSize)
    simp [htail]
termination_by items => items.length
decreasing_by
  simp only [List.length_drop, List.length_cons]
  omega

/-- The sum of the batch lengths is the item count. -/
theorem chunkBatches_sum_length (batchSize : Nat) (h : batchSize ≠ 0) (items : List α) :
    ((chunkBatches batchSize items).map List.length).sum = items.length := by
  have := chunkBatches_flatten batchSize h items
  calc ((chunkBatches batchSize items).map List.length).sum
      = (chunkBatches batchSize items).flatten.length := (List.length_flatten _).symm
    _ = items.length := by rw [this]

/-- Closed form of the `processBatches` loop: the final state appends, to
the initial one, the successful results in order, the indexed errors in
order, the total length processed, and one progress entry per batch. -/
theorem batchRun_closed (totalItems : Nat) (processFn : List α → Except E R) :
    ∀ (ps : List (Nat × List α)) (st : BatchRunState R E),
      (ps.foldl (processBatchStep totalItems processFn) st).results =
        st.results ++ ps.filterMap (fun p => (processFn p.2).toOption) ∧
      (ps.foldl (processBatchStep totalItems processFn) st).errors =
        st.errors ++ ps.filterMap (fun p =>
          match processFn p.2 with
          | .error e => some (p.1, e)
          | .ok _ => none) ∧
      (ps.foldl (processBatchStep totalItems processFn) st).processed =
        st.processed + (ps.map (fun p => p.2.length)).sum
  | [], st => by simp
  | p :: ps, st => by
    obtain ⟨hres, herr, hproc⟩ :=
      batchRun_closed totalItems processFn ps (processBatchStep totalItems processFn st p)
    cases hfp : processFn p.2 with
    | ok r =>
      refine ⟨?_, ?_, ?_⟩
      · rw [List.foldl_cons, hres]
        simp [processBatchStep, hfp, List.filterMap_cons, Except.toOption]
      · rw [List.foldl_cons, herr]
        simp [processBatchStep, hfp, List.filterMap_cons, Except.toOption]
      · rw [List.foldl_cons, hproc]
        simp [processBatchStep, hfp]
        omega
    | error e =>
      refine ⟨?_, ?_, ?_⟩
      · rw [List.foldl_cons, hres]
        simp [processBatchStep, hfp, List.filterMap_cons, Except.toOption]
      · rw [List.foldl_cons, herr]
        simp [processBatchStep, hfp, List.filterMap_cons, Except.toOption]
      · rw [List.foldl_cons, hproc]
        simp [processBatchStep, hfp]
        omega

/-- Every step of the loop reports progress, so after a non-empty run the
last reported progress is the final `processed` counter over the total. -/
theorem batchRun_last_progress (totalItems : Nat) (processFn : List α → Except E R) :
    ∀ (ps : List (Nat × List α)) (st : BatchRunState R E), ps ≠ [] →
      (ps.foldl (processBatchStep totalItems processFn) st).progressLog.getLast? =
        some ((ps.foldl (processBatchStep totalItems processFn) st).processed, totalItems)
  | [], _, h => absurd rfl h
  | p :: ps, st, _ => by
    cases hps : ps with
    | nil =>
      simp only [List.foldl_cons, List.foldl_nil]
      cases hfp : processFn p.2 <;>
        simp [processBatchStep, hfp]
    | cons q qs =>
      subst hps
      rw [List.foldl_cons]
      exact batchRun_last_progress totalItems processFn (q :: qs) _ (by simp)

/-- Claim C3 — batch-group failure isolation.  With a positive batch size,
`processBatches` returns the successful result of every batch whose
operation succeeded (in order), records each failed batch's error with its
batch index, and its final progress report counts every item — including
the items of failed batches — so one failed batch never aborts the run. -/
theorem claim_C3_batch_isolation (items : List α) (batchSize : Nat)
    (processFn : List α → Except E R) (hbs : batchSize ≠ 0) :
    (processBatches items batchSize processFn false).1.results =
      (chunkBatches batchSize items).filterMap (fun b => (processFn b).toOption) ∧
    (processBatches items batchSize processFn false).1.errors =
      (chunkBatches batchSize items).enum.filterMap (fun p =>
        match processFn p.2 with
        | .error e => some (p.1, e)
        | .ok _ => none) ∧
    (processBatches items batchSize processFn false).1.total = items.length ∧
    (chunkBatches batchSize items ≠ [] →
      (processBatches items batchSize processFn false).2.getLast? =
        some (items.length, items.length)) := by
  obtain ⟨hres, herr, hproc⟩ :=
    batchRun_closed items.length processFn (chunkBatches batchSize items).enum
      ⟨[], [], 0, []⟩
  have henum_snd : ((chunkBatches batchSize items).enum.map (fun p => p.2.length)).sum =
      items.length := by
    have hsnd : (chunkBatches batchSize items).enum.map (fun p => p.2.length) =
        (chunkBatches batchSize items).map List.length := by
      rw [show (fun p : Nat × List α => p.2.length) = List.length ∘ Prod.snd from rfl,
        ← List.map_map, List.enum_map_snd]
    rw [hsnd, chunkBatches_sum_length batchSize hbs]
  refine ⟨?_, ?_, rfl, ?_⟩
  · simp only [processBatches, if_false, Bool.false_eq_true]
    rw [hres]
    have : (chunkBatches batchSize items).enum.filterMap
        (fun p => (processFn p.2).toOption) =
        ((chunkBatches batchSize items).enum.map Prod.snd).filterMap
          (fun b => (processFn b).toOption) := by
      rw [List.filterMap_map]
      rfl
    rw [this, List.enum_map_snd]
    rfl
  · simp only [processBatches, if_false, Bool.false_eq_true]
    rw [herr]
    rfl
  · intro hne
    have hne' : (chunkBatches batchSize items).enum ≠ [] := by
      simpa using hne
    have hlast := batchRun_last_progress items.length processFn
      (chunkBatches batchSize items).enum ⟨[], [], 0, []⟩ hne'
    simp only [processBatches, if_false, Bool.false_eq_true]
    rw [hlast, hproc]
    simp [henum_snd]

/-- Claim C10 — whole-batch success/failure counts.  `successCount` and
`failureCount` are the number of succeeded (resp. failed) batches times the
batch size, not actual item counts; the final conjunct exhibits 5 items in
one under-full batch of size 10 whose `successCount + failureCount = 10`
exceeds `total = 5`. -/
theorem claim_C10_approximate_counts (items : List α) (batchSize : Nat)
    (processFn : List α → Except E R) (_hbs : batchSize ≠ 0) :
    (processBatches items batchSize processFn false).1.successCount =
      ((chunkBatches batchSize items).filterMap
        (fun b => (processFn b).toOption)).length * batchSize ∧
    (processBatches items batchSize processFn false).1.failureCount =
      ((chunkBatches batchSize items).enum.filterMap (fun p =>
        match processFn p.2 with
        | .error e => some (p.1, e)
        | .ok _ => none)).length * batchSize ∧
    (processBatches items batchSize processFn false).1.total = items.length ∧
    ((processBatches [0, 1, 2, 3, 4] 10
        (fun b => (Except.ok b.length : Except Unit Nat)) false).1.total <
      (processBatches [0, 1, 2, 3, 4] 10
        (fun b => (Except.ok b.length : Except Unit Nat)) false).1.successCount +
      (processBatches [0, 1, 2, 3, 4] 10
        (fun b => (Except.ok b.length : Except Unit Nat)) false).1.failureCount) := by
  obtain ⟨hres, herr, hproc⟩ :=
    batchRun_closed items.length processFn (chunkBatches batchSize items).enum
      ⟨[], [], 0, []⟩
  refine ⟨?_, ?_, rfl, ?_⟩
  · simp only [processBatches, if_false, Bool.false_eq_true]
    rw [hres]
    have : (chunkBatches batchSize items).enum.filterMap
        (fun p => (processFn p.2).toOption) =
        ((chunkBatches batchSize items).enum.map Prod.snd).filterMap
          (fun b => (processFn b).toOption) := by
      rw [List.filterMap_map]
      rfl
    rw [show ((⟨[], [], 0, []⟩ : BatchRunState R E).results) = [] from rfl,
      List.nil_append, this, List.enum_map_snd]
  · simp only [processBatches, if_false, Bool.false_eq_true]
    rw [herr]
    rfl
  · have h1 : (chunkBatches 10 [0, 1, 2, 3, 4]).enum = [(0, [0, 1, 2, 3, 4])] := by
      rw [chunkBatches_cons 10 0 [1, 2, 3, 4] (by norm_num)]
      norm_num [chunkBatches_nil]
    simp [processBatches, h1, processBatchStep]

/-- The accumulated dot product is symmetric. -/
theorem dotQ_comm (a : List ℚ) : ∀ b : List ℚ, dotQ a b = dotQ b a := by
  induction a with
  | nil => intro b; cases b <;> simp [dotQ]
  | cons x xs ih =>
    intro b
    cases b with
    | nil => simp [dotQ]
    | cons y ys =>
      have h1 : dotQ (x :: xs) (y :: ys) = x * y + dotQ xs ys := by simp [dotQ]
      have h2 : dotQ (y :: ys) (x :: xs) = y * x + dotQ ys xs := by simp [dotQ]
      rw [h1, h2, ih ys, mul_comm]

/-- Claim C9 — cosine similarity contract.  On equal-dimension vectors the
function is symmetric and returns the similarity value `0` whenever either
vector has zero magnitude (`dotQ v v = 0`, i.e. the sum of squares
vanishes) instead of dividing by zero; on unequal dimensions it fails with
the dimension-mismatch error rather than truncating or padding. -/
theorem claim_C9_cosine_contract (a b : List ℚ) :
    (a.length = b.length → cosineSimilarity a b = cosineSimilarity b a) ∧
    (a.length = b.length → (dotQ a a = 0 ∨ dotQ b b = 0) →
      cosineSimilarity a b = .ok simZero) ∧
    (a.length ≠ b.length →
      cosineSimilarity a b = .error (dimMismatchMsg a.length b.length)) := by
  refine ⟨?_, ?_, ?_⟩
  · intro h
    have hco : cosOk a b = cosOk b a := by
      simp only [cosOk]
      rw [dotQ_comm a b]
      by_cases hz : dotQ a a * dotQ b b = 0
      · rw [dif_pos hz, dif_pos (by rw [mul_comm] at hz; exact hz)]
      · rw [dif_neg hz, dif_neg (by rw [mul_comm]; exact hz)]
        simp [SimVal.mk.injEq, mul_comm]
    simp [cosineSimilarity, h, hco]
  · intro h hz
    have hprod : dotQ a a * dotQ b b = 0 := by
      rcases hz with hz | hz <;> simp [hz]
    simp [cosineSimilarity, h, cosOk, hprod]
  · intro h
    simp [cosineSimilarity, h]

/-- On equal dimensions `cosineSimilarity` cannot throw. -/
theorem cosineSimilarity_of_len {q e : List ℚ} (h : e.length = q.length) :
    cosineSimilarity q e = .ok (cosOk q e) := by
  simp [cosineSimilarity, h]

/-- Closed form of the `findSimilar` scan: when every stored vector has the
query's dimension, the loop returns the accumulator extended by exactly the
non-excluded records whose similarity passes the threshold, in cache
order. -/
theorem findSimilarAux_closed (q : List ℚ) (thr : ℚ) (excl : List String) :
    ∀ (cache : List StoredEmbedding),
      (∀ s ∈ cache, s.embedding.length = q.length) →
      ∀ acc, findSimilarAux q thr excl cache acc =
        .ok (acc ++ (cache.filter (fun s =>
            !(excl.contains s.noteId) &&
              SimVal.le (SimVal.ofRat thr) (cosOk q s.embedding))).map
          (fun s => ⟨s.noteId, s.notePath, cosOk q s.embedding⟩))
  | [], _, acc => by simp [findSimilarAux]
  | s :: rest, hdims, acc => by
    have hs : s.embedding.length = q.length := hdims s (List.mem_cons_self _ _)
    have hrest : ∀ x ∈ rest, x.embedding.length = q.length := fun x hx =>
      hdims x (List.mem_cons_of_mem _ hx)
    by_cases hexcl : excl.contains s.noteId
    · simp only [findSimilarAux, hexcl, if_true]
      rw [findSimilarAux_closed q thr excl rest hrest acc,
        List.filter_cons_of_neg
          (by simp only [hexcl, Bool.not_true, Bool.false_and, Bool.false_eq_true,
            not_false_eq_true])]
    · have hexcl' : excl.contains s.noteId = false := by
        cases h : excl.contains s.noteId
        · rfl
        · exact absurd h hexcl
      simp only [findSimilarAux, hexcl, if_false, Bool.false_eq_true,
        cosineSimilarity_of_len hs]
      by_cases hpass : SimVal.le (SimVal.ofRat thr) (cosOk q s.embedding)
      · simp only [hpass, if_true]
        rw [findSimilarAux_closed q thr excl rest hrest _,
          List.filter_cons_of_pos
            (by simp only [hexcl', Bool.not_false, Bool.true_and, hpass])]
        simp
      · have hpass' : SimVal.le (SimVal.ofRat thr) (cosOk q s.embedding) = false := by
          cases h : SimVal.le (SimVal.ofRat thr) (cosOk q s.embedding)
          · rfl
          · exact absurd h hpass
        simp only [hpass', if_false, Bool.false_eq_true]
        rw [findSimilarAux_closed q thr excl rest hrest acc,
          List.filter_cons_of_neg
            (by simp only [hexcl', Bool.not_false, Bool.true_and, hpass',
              Bool.false_eq_true, not_false_eq_true])]

/-- Inserting into a sorted-so-far list:  the elements of one similarity
class are preserved, with the inserted element (when it belongs to the
class) placed first — the skipped elements are strictly more similar, so
none of them is in the class. -/
theorem filter_eqv_orderedInsert (v : SimVal) (a : SimilarityResult) :
    ∀ l : List SimilarityResult,
      (List.orderedInsert simGe a l).filter (eqvSim v) =
        if eqvSim v a then a :: l.filter (eqvSim v) else l.filter (eqvSim v)
  | [] => by
    by_cases hpa : eqvSim v a <;> simp [List.orderedInsert, hpa]
  | b :: bs => by
    by_cases hab : simGe a b
    · have hstep : List.orderedInsert simGe a (b :: bs) = a :: b :: bs := by
        simp only [List.orderedInsert, if_pos hab]
      rw [hstep]
      by_cases hpa : eqvSim v a <;> simp [hpa, List.filter_cons]
    · have hstep : List.orderedInsert simGe a (b :: bs) =
          b :: List.orderedInsert simGe a bs := by
        simp only [List.orderedInsert, if_neg hab]
      rw [hstep]
      by_cases hpa : eqvSim v a
      · have hpb : eqvSim v b = false := by
          by_contra hpb
          apply hab
          have hpb' : eqvSim v b = true := by
            simpa using hpb
          simp only [eqvSim, Bool.and_eq_true] at hpa hpb'
          exact SimVal.le_trans' hpb'.1 hpa.2
        rw [List.filter_cons_of_neg (by simp [hpb]), filter_eqv_orderedInsert v a bs,
          List.filter_cons_of_neg (by simp [hpb])]
      · rw [List.filter_cons, filter_eqv_orderedInsert v a bs, List.filter_cons]
        simp [hpa]

/-- Stability of the model sort: each similarity class of the sorted list
is the similarity class of the input, in the input's (insertion) order. -/
theorem filter_eqv_insertionSort (v : SimVal) :
    ∀ l : List SimilarityResult,
      (l.insertionSort simGe).filter (eqvSim v) = l.filter (eqvSim v)
  | [] => rfl
  | a :: l => by
    simp only [List.insertionSort]
    rw [filter_eqv_orderedInsert v a (l.insertionSort simGe),
      filter_eqv_insertionSort v l]
    by_cases hpa : eqvSim v a
    · rw [if_pos hpa, List.filter_cons_of_pos hpa]
    · rw [if_neg hpa, List.filter_cons_of_neg (by simpa using hpa)]

/-- Claim C6 — `findSimilar` contract.  Provided every stored vector has
the query's dimension, the call succeeds and returns exactly the stored
records that are not excluded and whose cosine similarity is at least the
threshold, sorted stably by similarity descending (equal similarities stay
in cache/insertion order — the class-filter conjunct) and truncated to at
most `limit` elements (all of them when at most `limit` qualify). -/
theorem claim_C6_findSimilar_contract (cache : List StoredEmbedding) (q : List ℚ)
    (limit? : Option Nat) (threshold? : Option ℚ) (excludeIds? : Option (List String))
    (hdims : ∀ s ∈ cache, s.embedding.length = q.length) :
    let limit := limit?.getD 10
    let thr := threshold?.getD (1 / 2)
    let excl := excludeIds?.getD []
    let qualifying := (cache.filter (fun s =>
        !(excl.contains s.noteId) &&
          SimVal.le (SimVal.ofRat thr) (cosOk q s.embedding))).map
      (fun s => (⟨s.noteId, s.notePath, cosOk q s.embedding⟩ : SimilarityResult))
    let result := (qualifying.insertionSort simGe).take limit
    findSimilar cache q limit? threshold? excludeIds? = .ok result ∧
    result.Sorted simGe ∧
    (∀ x ∈ result, SimVal.le (SimVal.ofRat thr) x.similarity = true ∧
      excl.contains x.noteId = false ∧ x ∈ qualifying) ∧
    result.length = min limit qualifying.length ∧
    (qualifying.length ≤ limit → result.Perm qualifying) ∧
    (∀ v : SimVal, (qualifying.insertionSort simGe).filter (eqvSim v) =
      qualifying.filter (eqvSim v)) := by
  intro limit thr excl qualifying result
  have hmain : findSimilar cache q limit? threshold? excludeIds? = .ok result := by
    unfold findSimilar
    dsimp only
    rw [findSimilarAux_closed q thr excl cache hdims []]
    simp only [List.nil_append]
  refine ⟨hmain, ?_, ?_, ?_, ?_, ?_⟩
  · exact (List.sorted_insertionSort simGe qualifying).sublist
      (List.take_sublist _ _)
  · intro x hx
    have hx' : x ∈ qualifying := by
      have := List.take_subset limit (qualifying.insertionSort simGe) hx
      exact (List.mem_insertionSort simGe).mp this
    obtain ⟨s, hsmem, hseq⟩ := List.mem_map.mp hx'
    have hpred := List.of_mem_filter hsmem
    simp only [Bool.and_eq_true, Bool.not_eq_true'] at hpred
    refine ⟨?_, ?_, hx'⟩
    · rw [← hseq]
      exact hpred.2
    · rw [← hseq]
      exact hpred.1
  · rw [List.length_take, (List.perm_insertionSort simGe qualifying).length_eq]
  · intro hle
    have : result = qualifying.insertionSort simGe :=
      List.take_of_length_le
        (by rw [(List.perm_insertionSort simGe qualifying).length_eq]; exact hle)
    rw [this]
    exact List.perm_insertionSort simGe qualifying
  · exact fun v => filter_eqv_insertionSort v qualifying

/-- `findById` resolves a note to the requested id. -/
theorem findById_some_id {notes : List Note} {nid : String} {n : Note}
    (h : findById notes nid = some n) : n.id = nid := by
  have := List.find?_some h
  simpa using this

/-- Appending a single fresh entry keyed differently does not change a
lookup. -/
theorem rmFind_append_single_ne {m : List RecommendationItem}
    {it : RecommendationItem} {id : String} (h : it.noteId ≠ id) :
    rmFind (m ++ [it]) id = rmFind m id := by
  cases hm : rmFind m id with
  | some e => exact rmFind_append_some hm
  | none =>
    rw [rmFind_append_none hm]
    have hb : (it.noteId == id) = false := by simpa using h
    simp [rmFind, List.find?, hb]

/-- A semantic step for a hit keyed differently does not change a lookup. -/
theorem semStep_frame {notes : List Note} {src : Note} {m : List RecommendationItem}
    {r : SimilarityHit} {id : String} (h : r.noteId ≠ id) :
    rmFind (semStep notes src m r) id = rmFind m id := by
  unfold semStep
  by_cases hsrc : r.noteId == src.id
  · simp [hsrc]
  · simp only [hsrc, if_false, Bool.false_eq_true]
    cases hfind : findById notes r.noteId with
    | none => rfl
    | some note =>
      have hneq : note.id ≠ id := by
        rw [findById_some_id hfind]
        exact h
      dsimp only
      cases hm : rmFind m note.id with
      | some e =>
        dsimp only
        have he : e.noteId = note.id := rmFind_some_id hm
        rw [rmFind_rmSet_ne]
        intro hc
        exact hneq (by rw [hc, he])
      | none =>
        dsimp only
        exact rmFind_append_single_ne hneq

/-- Folding semantic hits none of which is keyed `id` preserves the lookup
at `id`. -/
theorem semFold_frame {notes : List Note} {src : Note} :
    ∀ (results : List SimilarityHit) (m : List RecommendationItem) (id : String),
      (∀ x ∈ results, x.noteId ≠ id) →
      rmFind (results.foldl (semStep notes src) m) id = rmFind m id
  | [], _, _, _ => rfl
  | r :: rs, m, id, h => by
    rw [List.foldl_cons,
      semFold_frame rs (semStep notes src m r) id
        (fun x hx => h x (List.mem_cons_of_mem _ hx)),
      semStep_frame (h r (List.mem_cons_self _ _))]

/-- What a semantic step does at the id it touches: boost-and-merge an
existing entry, or insert the raw similarity as a fresh entry. -/
theorem semStep_hit {notes : List Note} {src : Note} (m : List RecommendationItem)
    {r : SimilarityHit} {note : Note} (hsrc : r.noteId ≠ src.id)
    (hfind : findById notes r.noteId = some note) :
    rmFind (semStep notes src m r) r.noteId =
      match rmFind m r.noteId with
      | some e => some
          { e with
            score := max e.score (min 1 (e.score + r.similarity * (3 / 10)))
            reasons :=
              if e.reasons.any (fun s => strIncludes s "Semantic") then e.reasons
              else e.reasons ++ [semanticReason r.similarity] }
      | none => some ⟨note.id, note.title, note.filePath, r.similarity,
          [semanticReason r.similarity], none⟩ := by
  have hid : note.id = r.noteId := findById_some_id hfind
  unfold semStep
  simp only [show (r.noteId == src.id) = false from by simpa using hsrc,
    if_false, Bool.false_eq_true, hfind]
  rw [hid]
  cases hm : rmFind m r.noteId with
  | some e =>
    dsimp only
    have he : e.noteId = r.noteId := rmFind_some_id hm
    have := @rmFind_rmSet_self m
      { e with
        score := max e.score (min 1 (e.score + r.similarity * (3 / 10)))
        reasons :=
          if e.reasons.any (fun s => strIncludes s "Semantic") then e.reasons
          else e.reasons ++ [semanticReason r.similarity] }
      e (by simpa [he] using hm)
    simpa [he] using this
  | none =>
    dsimp only
    rw [rmFind_append_none hm]
    have hb : (note.id == r.noteId) = true := by simpa using hid
    simp [rmFind, List.find?, hb]

/-- Looking up a hit's id after the whole semantic fold, when hit ids are
distinct: the map state at that id is exactly the step applied to its
pre-fold state. -/
theorem semFold_hit {notes : List Note} {src : Note} :
    ∀ (results : List SimilarityHit) (m : List RecommendationItem) (r : SimilarityHit)
      (note : Note), r ∈ results → (results.map (fun x => x.noteId)).Nodup →
      r.noteId ≠ src.id → findById notes r.noteId = some note →
      rmFind (results.foldl (semStep notes src) m) r.noteId =
        match rmFind m r.noteId with
        | some e => some
            { e with
              score := max e.score (min 1 (e.score + r.similarity * (3 / 10)))
              reasons :=
                if e.reasons.any (fun s => strIncludes s "Semantic") then e.reasons
                else e.reasons ++ [semanticReason r.similarity] }
        | none => some ⟨note.id, note.title, note.filePath, r.similarity,
            [semanticReason r.similarity], none⟩
  | [], _, _, _, hmem, _, _, _ => absurd hmem (List.not_mem_nil _)
  | x :: rs, m, r, note, hmem, hnd, hsrc, hfind => by
    rw [List.map_cons, List.nodup_cons] at hnd
    rcases List.mem_cons.mp hmem with rfl | hmem'
    · rw [List.foldl_cons,
        semFold_frame rs (semStep notes src m r) r.noteId
          (fun y hy => fun hc => hnd.1 (hc ▸ List.mem_map_of_mem _ hy)),
        semStep_hit m hsrc hfind]
    · have hxr : x.noteId ≠ r.noteId := fun hc =>
        hnd.1 (hc ▸ List.mem_map_of_mem _ hmem')
      rw [List.foldl_cons,
        semFold_hit rs (semStep notes src m x) r note hmem' hnd.2 hsrc hfind,
        semStep_frame hxr]

/-- Claim C2 — semantic boost.  For a similarity hit on a candidate already
present in the working map with score `s`, the semantic strategy sets the
candidate's score to `max(s, min(1, s + 0.3 * similarity))`; a candidate
not yet in the map is inserted with score exactly the raw similarity. -/
theorem claim_C2_semantic_boost (notes : List Note) (src : Note)
    (m : List RecommendationItem) (results : List SimilarityHit)
    (r : SimilarityHit) (note : Note) (hmem : r ∈ results)
    (hnd : (results.map (fun x => x.noteId)).Nodup) (hsrc : r.noteId ≠ src.id)
    (hfind : findById notes r.noteId = some note) :
    (∀ e, rmFind m r.noteId = some e →
      (rmFind (addSemanticRecommendations notes src m (.ok results)) r.noteId).map
          (fun x => x.score) =
        some (max e.score (min 1 (e.score + r.similarity * (3 / 10))))) ∧
    (rmFind m r.noteId = none →
      (rmFind (addSemanticRecommendations notes src m (.ok results)) r.noteId).map
          (fun x => x.score) =
        some r.similarity) := by
  constructor
  · intro e he
    unfold addSemanticRecommendations
    rw [semFold_hit results m r note hmem hnd hsrc hfind, he]
    rfl
  · intro he
    unfold addSemanticRecommendations
    rw [semFold_hit results m r note hmem hnd hsrc hfind, he]
    rfl

/-- Claim C7 — hard-failure boundary.  An unresolvable source note id
yields the typed failure response (`success = false`, no recommendations,
the error message) rather than a thrown exception; when the source
resolves, an error thrown inside the semantic strategy is swallowed: the
response is exactly the one computed without any embedding service, and
`success` is still `true`. -/
theorem claim_C7_hard_failure_boundary (env : RecommendEnv)
    (req : RecommendNotesRequest) :
    (findById env.notes req.sourceNoteId = none →
      execute env req =
        ⟨false, [], req.sourceNoteId, some "Source note not found"⟩) ∧
    (∀ src s msg,
      findById env.notes req.sourceNoteId = some src →
      env.svc = some s →
      s.findSimilarNotes src.id (req.maxResults.getD 10)
          (req.semanticThreshold.getD (1 / 2)) = .error msg →
      execute env req = execute { env with svc := none } req ∧
      (execute env req).success = true) := by
  constructor
  · intro h
    unfold execute
    rw [h]
  · intro src s msg hfound hsvc herr
    have hexec : execute env req = execute { env with svc := none } req := by
      unfold execute
      dsimp only
      rw [hfound, hsvc]
      dsimp only
      rw [herr]
      rw [show addSemanticRecommendations env.notes src
          (if req.useGraphConnections.getD false = true then
            addGraphBasedRecommendations env.notes env.graph src
              (addTagBasedRecommendations env.notes src [])
          else addTagBasedRecommendations env.notes src [])
          (Except.error msg) =
          (if req.useGraphConnections.getD false = true then
            addGraphBasedRecommendations env.notes env.graph src
              (addTagBasedRecommendations env.notes src [])
          else addTagBasedRecommendations env.notes src []) from rfl]
      rw [ite_self]
    refine ⟨hexec, ?_⟩
    unfold execute
    dsimp only
    rw [hfound]

/-- The tag score `|matchedTags| / max(|sourceTags|, 1)` lies in `[0, 1]`
when the candidate's tags are deduplicated (the `Note` entity invariant). -/
theorem tagScore_bounds (src c : Note) (hnd : c.tags.Nodup) :
    0 ≤ ((c.tags.filter (fun tag => src.tags.contains tag)).length : ℚ) /
        ((max src.tags.length 1 : ℕ) : ℚ) ∧
    ((c.tags.filter (fun tag => src.tags.contains tag)).length : ℚ) /
        ((max src.tags.length 1 : ℕ) : ℚ) ≤ 1 := by
  have hden : (0 : ℚ) < ((max src.tags.length 1 : ℕ) : ℚ) := by
    have : 1 ≤ max src.tags.length 1 := le_max_right _ _
    exact_mod_cast lt_of_lt_of_le Nat.zero_lt_one (by exact_mod_cast this)
  constructor
  · apply div_nonneg _ (le_of_lt hden)
    positivity
  · rw [div_le_one hden]
    have hsub : (c.tags.filter (fun tag => src.tags.contains tag)) ⊆ src.tags := by
      intro x hx
      have := List.of_mem_filter hx
      simpa using this
    have hnd' : (c.tags.filter (fun tag => src.tags.contains tag)).Nodup :=
      hnd.filter _
    have hlen : (c.tags.filter (fun tag => src.tags.contains tag)).length ≤
        src.tags.length := (hnd'.subperm hsub).length_le
    have : (c.tags.filter (fun tag => src.tags.contains tag)).length ≤
        max src.tags.length 1 := le_trans hlen (le_max_left _ _)
    exact_mod_cast this

/-- The tag step keeps all scores in `[0, 1]`. -/
theorem tagStep_scoreInv {src c : Note} {m : List RecommendationItem}
    (hm : ∀ it ∈ m, 0 ≤ it.score ∧ it.score ≤ 1) (hnd : c.tags.Nodup) :
    ∀ it ∈ tagStep src m c, 0 ≤ it.score ∧ it.score ≤ 1 := by
  intro it hit
  unfold tagStep at hit
  by_cases hc : c.id == src.id
  · rw [if_pos hc] at hit
    exact hm it hit
  · rw [if_neg (by simpa using hc)] at hit
    obtain ⟨h0, h1⟩ := tagScore_bounds src c hnd
    cases hf : rmFind m c.id with
    | some e =>
      rw [hf] at hit
      rcases mem_rmSet hit with h | h
      · exact hm it h
      · obtain ⟨he0, he1⟩ := hm e (rmFind_some_mem hf)
        subst h
        exact ⟨le_trans he0 (le_max_left _ _), max_le he1 h1⟩
    | none =>
      rw [hf] at hit
      rcases List.mem_append.mp hit with h | h
      · exact hm it h
      · rw [List.mem_singleton.mp h]
        exact ⟨h0, h1⟩

/-- The graph step keeps all scores in `[0, 1]` (the fixed score is 0.8). -/
theorem graphStep_scoreInv {notes : List Note} {src : Note}
    {m : List RecommendationItem} {nodeId : String}
    (hm : ∀ it ∈ m, 0 ≤ it.score ∧ it.score ≤ 1) :
    ∀ it ∈ graphStep notes src m nodeId, 0 ≤ it.score ∧ it.score ≤ 1 := by
  intro it hit
  unfold graphStep at hit
  cases hfind : findById notes nodeId with
  | none =>
    rw [hfind] at hit
    exact hm it hit
  | some note =>
    rw [hfind] at hit
    dsimp only at hit
    by_cases hc : note.id == src.id
    · rw [if_pos hc] at hit
      exact hm it hit
    · rw [if_neg (by simpa using hc)] at hit
      cases hf : rmFind m note.id with
      | some e =>
        rw [hf] at hit
        rcases mem_rmSet hit with h | h
        · exact hm it h
        · obtain ⟨he0, he1⟩ := hm e (rmFind_some_mem hf)
          subst h
          refine ⟨le_trans he0 (le_max_left _ _), max_le he1 (by norm_num)⟩
      | none =>
        rw [hf] at hit
        rcases List.mem_append.mp hit with h | h
        · exact hm it h
        · rw [List.mem_singleton.mp h]
          norm_num

/-- The semantic step keeps all scores in `[0, 1]` provided the hit's
similarity is in `[0, 1]`. -/
theorem semStep_scoreInv {notes : List Note} {src : Note}
    {m : List RecommendationItem} {r : SimilarityHit}
    (hm : ∀ it ∈ m, 0 ≤ it.score ∧ it.score ≤ 1)
    (hr : 0 ≤ r.similarity ∧ r.similarity ≤ 1) :
    ∀ it ∈ semStep notes src m r, 0 ≤ it.score ∧ it.score ≤ 1 := by
  intro it hit
  unfold semStep at hit
  by_cases hc : r.noteId == src.id
  · rw [if_pos hc] at hit
    exact hm it hit
  · rw [if_neg (by simpa using hc)] at hit
    cases hfind : findById notes r.noteId with
    | none =>
      rw [hfind] at hit
      exact hm it hit
    | some note =>
      rw [hfind] at hit
      dsimp only at hit
      cases hf : rmFind m note.id with
      | some e =>
        rw [hf] at hit
        rcases mem_rmSet hit with h | h
        · exact hm it h
        · obtain ⟨he0, he1⟩ := hm e (rmFind_some_mem hf)
          subst h
          constructor
          · exact le_trans he0 (le_max_left _ _)
          · refine max_le he1 (min_le_left _ _)
      | none =>
        rw [hf] at hit
        rcases List.mem_append.mp hit with h | h
        · exact hm it h
        · rw [List.mem_singleton.mp h]
          exact hr

/-- Scores stay in `[0, 1]` across the tag-strategy fold. -/
theorem tagFold_scoreInv {src : Note} :
    ∀ (l : List Note) (m : List RecommendationItem),
      (∀ it ∈ m, 0 ≤ it.score ∧ it.score ≤ 1) → (∀ c ∈ l, c.tags.Nodup) →
      ∀ it ∈ l.foldl (tagStep src) m, 0 ≤ it.score ∧ it.score ≤ 1
  | [], _, hm, _ => hm
  | c :: cs, m, hm, hnd => by
    rw [List.foldl_cons]
    exact tagFold_scoreInv cs (tagStep src m c)
      (tagStep_scoreInv hm (hnd c (List.mem_cons_self _ _)))
      (fun x hx => hnd x (List.mem_cons_of_mem _ hx))

/-- Scores stay in `[0, 1]` across the graph-strategy fold. -/
theorem graphFold_scoreInv {notes : List Note} {src : Note} :
    ∀ (l : List String) (m : List RecommendationItem),
      (∀ it ∈ m, 0 ≤ it.score ∧ it.score ≤ 1) →
      ∀ it ∈ l.foldl (graphStep notes src) m, 0 ≤ it.score ∧ it.score ≤ 1
  | [], _, hm => hm
  | n :: ns, m, hm => by
    rw [List.foldl_cons]
    exact graphFold_scoreInv ns (graphStep notes src m n) (graphStep_scoreInv hm)

/-- Scores stay in `[0, 1]` across the semantic-strategy fold. -/
theorem semFold_scoreInv {notes : List Note} {src : Note} :
    ∀ (l : List SimilarityHit) (m : List RecommendationItem),
      (∀ it ∈ m, 0 ≤ it.score ∧ it.score ≤ 1) →
      (∀ r ∈ l, 0 ≤ r.similarity ∧ r.similarity ≤ 1) →
      ∀ it ∈ l.foldl (semStep notes src) m, 0 ≤ it.score ∧ it.score ≤ 1
  | [], _, hm, _ => hm
  | r :: rs, m, hm, hl => by
    rw [List.foldl_cons]
    exact semFold_scoreInv rs (semStep notes src m r)
      (semStep_scoreInv hm (hl r (List.mem_cons_self _ _)))
      (fun x hx => hl x (List.mem_cons_of_mem _ hx))

/-- Scores stay in `[0, 1]` across `addTagBasedRecommendations`. -/
theorem addTag_scoreInv {notes : List Note} {src : Note}
    {m : List RecommendationItem} (hm : ∀ it ∈ m, 0 ≤ it.score ∧ it.score ≤ 1)
    (htags : ∀ n ∈ notes, n.tags.Nodup) :
    ∀ it ∈ addTagBasedRecommendations notes src m, 0 ≤ it.score ∧ it.score ≤ 1 := by
  unfold addTagBasedRecommendations
  by_cases hempty : src.tags.isEmpty
  · rw [if_pos hempty]
    exact hm
  · rw [if_neg hempty]
    exact tagFold_scoreInv _ m hm
      (fun c hc => htags c (List.mem_of_mem_filter hc))

/-- Scores stay in `[0, 1]` across `addSemanticRecommendations`. -/
theorem addSem_scoreInv {notes : List Note} {src : Note}
    {m : List RecommendationItem} {res : Except String (List SimilarityHit)}
    (hm : ∀ it ∈ m, 0 ≤ it.score ∧ it.score ≤ 1)
    (hres : ∀ l, res = .ok l → ∀ r ∈ l, 0 ≤ r.similarity ∧ r.similarity ≤ 1) :
    ∀ it ∈ addSemanticRecommendations notes src m res, 0 ≤ it.score ∧ it.score ≤ 1 := by
  unfold addSemanticRecommendations
  cases res with
  | error e => exact hm
  | ok l => exact semFold_scoreInv l m hm (hres l rfl)

/-- Claim C8, counterexample.  The use case takes the semantic threshold
from the caller; the store's cosine similarity can be negative (e.g.
opposite vectors).  With source `{tags: []}` and one semantic hit of
similarity `-1/2` (passing, say, a caller threshold of `-1`), the working
map after the semantic strategy holds a `RecommendationItem` whose score is
`-1/2 ∉ [0, 1]`, refuting the invariant as claimed. -/
theorem claim_C8_counterexample :
    addSemanticRecommendations
        [⟨"202401010000", "S", "s.md", []⟩, ⟨"202401010001", "C", "c.md", []⟩]
        ⟨"202401010000", "S", "s.md", []⟩
        (addTagBasedRecommendations
          [⟨"202401010000", "S", "s.md", []⟩, ⟨"202401010001", "C", "c.md", []⟩]
          ⟨"202401010000", "S", "s.md", []⟩ [])
        (.ok [⟨"202401010001", "c.md", -(1 / 2)⟩]) =
      [⟨"202401010001", "C", "c.md", -(1 / 2), [semanticReason (-(1 / 2))], none⟩] ∧
    ¬(0 ≤ (-(1 / 2) : ℚ)) := by
  constructor
  · simp [addSemanticRecommendations, addTagBasedRecommendations, semStep,
      findById, rmFind]
  · norm_num

/-- Claim C8, amended — score invariant.  Provided candidate notes carry
deduplicated tags (the `Note` entity invariant) and every similarity the
embedding service returns lies in `[0, 1]` (true of nonnegative cosine
similarities; NOT guaranteed for negative similarities admitted by a
caller-supplied negative threshold), every `RecommendationItem` score is in
`[0, 1]` after the tag strategy, after the graph strategy, after the
semantic strategy, and in the final returned list. -/
theorem claim_C8_amended (env : RecommendEnv) (req : RecommendNotesRequest)
    (src : Note) (hfound : findById env.notes req.sourceNoteId = some src)
    (htags : ∀ n ∈ env.notes, n.tags.Nodup)
    (hsim : ∀ s, env.svc = some s → ∀ id lim thr hits,
      s.findSimilarNotes id lim thr = .ok hits →
      ∀ h ∈ hits, 0 ≤ h.similarity ∧ h.similarity ≤ 1) :
    let m1 := addTagBasedRecommendations env.notes src []
    let m2 := if req.useGraphConnections.getD false then
        addGraphBasedRecommendations env.notes env.graph src m1
      else m1
    let m3 :=
      match env.svc with
      | some svc =>
        if req.useSemanticSimilarity.getD false && svc.ready then
          addSemanticRecommendations env.notes src m2
            (svc.findSimilarNotes src.id (req.maxResults.getD 10)
              (req.semanticThreshold.getD (1 / 2)))
        else m2
      | none => m2
    (∀ it ∈ m1, 0 ≤ it.score ∧ it.score ≤ 1) ∧
    (∀ it ∈ m2, 0 ≤ it.score ∧ it.score ≤ 1) ∧
    (∀ it ∈ m3, 0 ≤ it.score ∧ it.score ≤ 1) ∧
    (∀ it ∈ (execute env req).recommendations, 0 ≤ it.score ∧ it.score ≤ 1) := by
  intro m1 m2 m3
  have h1 : ∀ it ∈ m1, 0 ≤ it.score ∧ it.score ≤ 1 :=
    addTag_scoreInv (by simp) htags
  have h2 : ∀ it ∈ m2, 0 ≤ it.score ∧ it.score ≤ 1 := by
    show ∀ it ∈ (if req.useGraphConnections.getD false then
        addGraphBasedRecommendations env.notes env.graph src m1 else m1), _
    by_cases hg : req.useGraphConnections.getD false
    · rw [if_pos hg]
      exact graphFold_scoreInv _ m1 h1
    · rw [if_neg hg]
      exact h1
  have h3 : ∀ it ∈ m3, 0 ≤ it.score ∧ it.score ≤ 1 := by
    show ∀ it ∈ (match env.svc with
      | some svc =>
        if req.useSemanticSimilarity.getD false && svc.ready then
          addSemanticRecommendations env.notes src m2
            (svc.findSimilarNotes src.id (req.maxResults.getD 10)
              (req.semanticThreshold.getD (1 / 2)))
        else m2
      | none => m2), _
    cases hsvc : env.svc with
    | none => exact h2
    | some svc =>
      dsimp only
      by_cases hu : req.useSemanticSimilarity.getD false && svc.ready
      · rw [if_pos hu]
        exact addSem_scoreInv h2 (fun l hl => hsim svc hsvc _ _ _ l hl)
      · rw [if_neg hu]
        exact h2
  refine ⟨h1, h2, h3, ?_⟩
  intro it hit
  apply h3
  revert hit
  unfold execute
  dsimp only
  rw [hfound]
  dsimp only
  intro hit
  have hsort := List.take_subset (req.maxResults.getD 10) _ hit
  have hmem := (List.mem_insertionSort scoreGe).mp hsort
  have := List.mem_of_mem_filter hmem
  have := List.mem_of_mem_filter this
  cases hsvc : env.svc with
  | none =>
    rw [hsvc] at this
    show it ∈ (match env.svc with | some svc => _ | none => m2)
    rw [hsvc]
    exact this
  | some svc =>
    rw [hsvc] at this
    show it ∈ (match env.svc with | some svc => _ | none => m2)
    rw [hsvc]
    exact this

/-! ## String-content lemmas for the reason-deduplication guards -/

/-- `strIncludes` unfolded to infix containment. -/
theorem strIncludes_iff {s pat : String} :
    strIncludes s pat = true ↔ pat.data <:+: s.data := by
  simp [strIncludes]

/-- The shared-tags reason contains the guard substring `"Shared tags"`. -/
theorem sharedTagsReason_includes (matched : List String) :
    strIncludes (sharedTagsReason matched) "Shared tags" = true := by
  rw [strIncludes_iff]
  refine List.IsPrefix.isInfix ⟨(": ").data ++ (joinComma matched).data, ?_⟩
  show ("Shared tags").data ++ (": ").data ++ (joinComma matched).data = _
  rw [sharedTagsReason, String.data_append]
  rfl

/-- Characters of a `joinComma` come from the separator or from a part. -/
theorem mem_joinComma_data {ch : Char} :
    ∀ l : List String, ch ∈ (joinComma l).data →
      ch ∈ (", ").data ∨ ∃ t ∈ l, ch ∈ t.data := by
  have haux : ∀ (l : List String) (acc : String),
      ch ∈ (l.foldl (fun acc t => acc ++ ", " ++ t) acc).data →
      ch ∈ acc.data ∨ ch ∈ (", ").data ∨ ∃ t ∈ l, ch ∈ t.data := by
    intro l
    induction l with
    | nil => intro acc h; exact Or.inl h
    | cons x xs ih =>
      intro acc h
      rcases ih (acc ++ ", " ++ x) h with h' | h' | ⟨t, ht, hct⟩
      · rw [String.data_append, String.data_append] at h'
        rcases List.mem_append.mp h' with h'' | h''
        · rcases List.mem_append.mp h'' with h3 | h3
          · exact Or.inl h3
          · exact Or.inr (Or.inl h3)
        · exact Or.inr (Or.inr ⟨x, List.mem_cons_self _ _, h''⟩)
      · exact Or.inr (Or.inl h')
      · exact Or.inr (Or.inr ⟨t, List.mem_cons_of_mem _ ht, hct⟩)
  intro l h
  cases l with
  | nil => simp [joinComma] at h
  | cons x xs =>
    rcases haux xs x (by simpa [joinComma] using h) with h' | h' | ⟨t, ht, hct⟩
    · exact Or.inr ⟨x, List.mem_cons_self _ _, h'⟩
    · exact Or.inl h'
    · exact Or.inr ⟨t, List.mem_cons_of_mem _ ht, hct⟩

/-- A string fixed by `strToLower` has only lower-case-fixed characters. -/
theorem char_fixed_of_strToLower {t : String} (h : strToLower t = t) :
    ∀ ch ∈ t.data, Char.toLower ch = ch := by
  have haux : ∀ l : List Char, l.map Char.toLower = l → ∀ ch ∈ l, Char.toLower ch = ch := by
    intro l
    induction l with
    | nil => intro _ ch hch; simp at hch
    | cons x xs ih =>
      intro hl ch hch
      rw [List.map_cons, List.cons.injEq] at hl
      rcases List.mem_cons.mp hch with rfl | hch'
      · exact hl.1
      · exact ih hl.2 ch hch'
  exact haux t.data (congrArg String.data h)

/-- The shared-tags reason for lower-cased tags never contains the guard
substring `"Direct link"` (its capital `D` cannot occur). -/
theorem sharedTagsReason_no_direct {matched : List String}
    (hnorm : ∀ t ∈ matched, strToLower t = t) :
    strIncludes (sharedTagsReason matched) "Direct link" = false := by
  rw [Bool.eq_false_iff]
  intro hc
  have hinf := strIncludes_iff.mp hc
  have hD : 'D' ∈ (sharedTagsReason matched).data :=
    hinf.subset (by decide)
  rw [sharedTagsReason, String.data_append] at hD
  rcases List.mem_append.mp hD with h | h
  · revert h
    decide
  · rcases mem_joinComma_data matched h with h' | ⟨t, ht, hct⟩
    · revert h'
      decide
    · have := char_fixed_of_strToLower (hnorm t ht) 'D' hct
      revert this
      decide

/-- Mapping a function that fixes every member is the identity. -/
theorem map_self_of_fixed {α : Type} {f : α → α} :
    ∀ l : List α, (∀ x ∈ l, f x = x) → l.map f = l
  | [], _ => rfl
  | x :: xs, h => by
    rw [List.map_cons, h x (List.mem_cons_self _ _),
      map_self_of_fixed xs (fun y hy => h y (List.mem_cons_of_mem _ hy))]

/-- Starting from a map that holds none of the fold's candidates, the tag
fold (over notes with distinct ids) appends exactly one fresh item per
non-source candidate, in order. -/
theorem tagFold_fresh {src : Note} :
    ∀ (l : List Note) (m : List RecommendationItem),
      ((l.map (fun n => n.id)).Nodup) →
      (∀ c ∈ l, rmFind m c.id = none) →
      l.foldl (tagStep src) m =
        m ++ l.filterMap (fun c =>
          if c.id = src.id then none else some (freshTagItem src c))
  | [], m, _, _ => by simp
  | c :: cs, m, hnd, hdisj => by
    rw [List.map_cons, List.nodup_cons] at hnd
    rw [List.foldl_cons]
    by_cases hcs : c.id = src.id
    · have hstep : tagStep src m c = m := by
        unfold tagStep
        rw [if_pos (by simpa using hcs)]
      rw [hstep, tagFold_fresh cs m hnd.2
        (fun x hx => hdisj x (List.mem_cons_of_mem _ hx))]
      simp [List.filterMap_cons, hcs]
    · have hstep : tagStep src m c = m ++ [freshTagItem src c] := by
        unfold tagStep
        rw [if_neg (by simpa using hcs), hdisj c (List.mem_cons_self _ _)]
        rfl
      rw [hstep, tagFold_fresh cs (m ++ [freshTagItem src c]) hnd.2 ?_]
      · simp [List.filterMap_cons, hcs]
      · intro x hx
        have hne : (freshTagItem src c).noteId ≠ x.id := by
          show c.id ≠ x.id
          intro hc
          exact hnd.1 (hc ▸ List.mem_map_of_mem _ hx)
        rw [rmFind_append_single_ne hne]
        exact hdisj x (List.mem_cons_of_mem _ hx)

/-- Looking up a candidate's fresh item in the appended tag items. -/
theorem rmFind_tagItems_some {src : Note} :
    ∀ (l : List Note) (c : Note), ((l.map (fun n => n.id)).Nodup) → c ∈ l →
      c.id ≠ src.id →
      rmFind (l.filterMap (fun x =>
          if x.id = src.id then none else some (freshTagItem src x))) c.id =
        some (freshTagItem src c)
  | [], _, _, hmem, _ => absurd hmem (List.not_mem_nil _)
  | x :: xs, c, hnd, hmem, hcs => by
    rw [List.map_cons, List.nodup_cons] at hnd
    rcases List.mem_cons.mp hmem with rfl | hmem'
    · rw [List.filterMap_cons, if_neg hcs]
      simp [rmFind, List.find?, freshTagItem]
    · have hne : x.id ≠ c.id := fun hc =>
        hnd.1 (hc ▸ List.mem_map_of_mem _ hmem')
      rw [List.filterMap_cons]
      by_cases hx : x.id = src.id
      · rw [if_pos hx]
        exact rmFind_tagItems_some xs c hnd.2 hmem' hcs
      · rw [if_neg hx]
        have : rmFind (freshTagItem src x ::
            xs.filterMap (fun y =>
              if y.id = src.id then none else some (freshTagItem src y))) c.id =
            rmFind (xs.filterMap (fun y =>
              if y.id = src.id then none else some (freshTagItem src y))) c.id := by
          simp [rmFind, List.find?, freshTagItem,
            show (x.id == c.id) = false from by simpa using hne]
        rw [this]
        exact rmFind_tagItems_some xs c hnd.2 hmem' hcs

/-- An id that is not among the candidates is absent from the tag items. -/
theorem rmFind_tagItems_none {src : Note} :
    ∀ (l : List Note) (id : String), id ∉ l.map (fun n => n.id) →
      rmFind (l.filterMap (fun x =>
          if x.id = src.id then none else some (freshTagItem src x))) id = none
  | [], _, _ => rfl
  | x :: xs, id, hid => by
    rw [List.map_cons] at hid
    have hx : x.id ≠ id := fun hc => hid (hc ▸ List.mem_cons_self _ _)
    have hxs : id ∉ xs.map (fun n => n.id) := fun hc =>
      hid (List.mem_cons_of_mem _ hc)
    rw [List.filterMap_cons]
    by_cases hsrc : x.id = src.id
    · rw [if_pos hsrc]
      exact rmFind_tagItems_none xs id hxs
    · rw [if_neg hsrc]
      have : rmFind (freshTagItem src x ::
          xs.filterMap (fun y =>
            if y.id = src.id then none else some (freshTagItem src y))) id =
          rmFind (xs.filterMap (fun y =>
            if y.id = src.id then none else some (freshTagItem src y))) id := by
        simp [rmFind, List.find?, freshTagItem,
          show (x.id == id) = false from by simpa using hx]
      rw [this]
      exact rmFind_tagItems_none xs id hxs

/-- A graph step for a node id resolving to a different note id (or not
resolving at all) does not change a lookup. -/
theorem graphStep_frame {notes : List Note} {src : Note}
    {m : List RecommendationItem} {nodeId id : String} (h : nodeId ≠ id) :
    rmFind (graphStep notes src m nodeId) id = rmFind m id := by
  unfold graphStep
  cases hfind : findById notes nodeId with
  | none => rfl
  | some note =>
    dsimp only
    have hneq : note.id ≠ id := by
      rw [findById_some_id hfind]
      exact h
    by_cases hc : note.id == src.id
    · rw [if_pos hc]
    · rw [if_neg (by simpa using hc)]
      cases hm : rmFind m note.id with
      | some e =>
        dsimp only
        have he : e.noteId = note.id := rmFind_some_id hm
        rw [rmFind_rmSet_ne]
        intro hc'
        exact hneq (by rw [hc', he])
      | none =>
        dsimp only
        exact rmFind_append_single_ne hneq

/-- What a graph step does at the note it resolves. -/
theorem graphStep_hit {notes : List Note} {src : Note} (m : List RecommendationItem)
    {c : Note} (hfind : findById notes c.id = some c) (hsrc : c.id ≠ src.id) :
    rmFind (graphStep notes src m c.id) c.id =
      match rmFind m c.id with
      | some e => some (mergeGraphItem e)
      | none => some (freshGraphItem c) := by
  unfold graphStep
  rw [hfind]
  dsimp only
  rw [if_neg (by simpa using hsrc)]
  cases hm : rmFind m c.id with
  | some e =>
    dsimp only
    have he : e.noteId = c.id := rmFind_some_id hm
    have := @rmFind_rmSet_self m (mergeGraphItem e) e
      (by simpa [mergeGraphItem, he] using hm)
    simpa [mergeGraphItem, he] using this
  | none =>
    dsimp only
    rw [rmFind_append_none hm]
    simp [rmFind, List.find?, freshGraphItem]

/-- A fixpoint entry survives the whole graph fold. -/
theorem graphFold_fixpoint {notes : List Note} {src : Note} {c : Note}
    {X : RecommendationItem} (hfind : findById notes c.id = some c)
    (hsrc : c.id ≠ src.id) (hfix : mergeGraphItem X = X) :
    ∀ (l : List String) (m : List RecommendationItem),
      rmFind m c.id = some X →
      rmFind (l.foldl (graphStep notes src) m) c.id = some X
  | [], _, hm => hm
  | nid :: ns, m, hm => by
    rw [List.foldl_cons]
    by_cases hnid : nid = c.id
    · subst hnid
      apply graphFold_fixpoint hfind hsrc hfix ns
      rw [graphStep_hit m hfind hsrc, hm]
      simpa using hfix
    · apply graphFold_fixpoint hfind hsrc hfix ns
      rw [graphStep_frame hnid, hm]

/-- Once the connected note occurs in the list, the entry reaches the
fixpoint value determined by its pre-fold state and stays there. -/
theorem graphFold_progress {notes : List Note} {src : Note} {c : Note}
    {X : RecommendationItem} (hfind : findById notes c.id = some c)
    (hsrc : c.id ≠ src.id) (hfix : mergeGraphItem X = X) :
    ∀ (l : List String) (m : List RecommendationItem), c.id ∈ l →
      (match rmFind m c.id with
        | some e => mergeGraphItem e
        | none => freshGraphItem c) = X →
      rmFind (l.foldl (graphStep notes src) m) c.id = some X
  | [], _, hmem, _ => absurd hmem (List.not_mem_nil _)
  | nid :: ns, m, hmem, hX => by
    rw [List.foldl_cons]
    by_cases hnid : nid = c.id
    · subst hnid
      apply graphFold_fixpoint hfind hsrc hfix ns
      rw [graphStep_hit m hfind hsrc]
      cases hm : rmFind m c.id with
      | some e =>
        rw [hm] at hX
        simpa using hX
      | none =>
        rw [hm] at hX
        simpa using hX
    · rcases List.mem_cons.mp hmem with hc | hmem'
      · exact absurd hc.symm hnid
      · apply graphFold_progress hfind hsrc hfix ns _ hmem'
        rw [graphStep_frame hnid]
        exact hX

/-- With distinct ids, `findById` on a member's id resolves that member. -/
theorem findById_of_mem_nodup {notes : List Note}
    (hnd : (notes.map (fun n => n.id)).Nodup) :
    ∀ {c : Note}, c ∈ notes → findById notes c.id = some c := by
  induction notes with
  | nil => intro c hc; exact absurd hc (List.not_mem_nil _)
  | cons x xs ih =>
    intro c hc
    rw [List.map_cons, List.nodup_cons] at hnd
    rcases List.mem_cons.mp hc with rfl | hc'
    · simp [findById, List.find?]
    · have hne : (x.id == c.id) = false := by
        simp only [beq_eq_false_iff_ne, ne_eq]
        intro h
        exact hnd.1 (h ▸ List.mem_map_of_mem _ hc')
      unfold findById
      rw [List.find?_cons_of_neg _ (by simp [hne])]
      exact ih hnd.2 hc'

/-- The fresh graph item is a fixpoint of the graph merge. -/
theorem mergeGraphItem_fresh (c : Note) :
    mergeGraphItem (freshGraphItem c) = freshGraphItem c := by
  unfold mergeGraphItem freshGraphItem
  have hdl : strIncludes directLinkReason "Direct link" = true := by decide
  simp [hdl]

/-- Claim C1, counterexample.  Source tags `{a, b}` and candidate tags
`{a, c}` share the tag `a`, yet the tag strategy assigns the candidate no
score at all: the composed repository (`VaultAdapter.findByTags`) filters
with `tags.every(...)`, so only candidates holding ALL source tags are ever
scored — the claimed `|matchedTags| / max(|sourceTags|, 1) = 1/2` never
happens. -/
theorem claim_C1_counterexample :
    (let src : Note := ⟨"202401010000", "S", "s.md", ["a", "b"]⟩
     let cand : Note := ⟨"202401010001", "C", "c.md", ["a", "c"]⟩
     cand.tags.filter (fun t => src.tags.contains t) ≠ [] ∧
     rmFind (addTagBasedRecommendations [src, cand] src []) cand.id = none) := by
  constructor
  · decide
  · simp [addTagBasedRecommendations, findByTags, strToLower, tagStep, rmFind]

/-- Membership in `findByTags` (for normalized tags): exactly the notes
holding every requested tag. -/
theorem mem_findByTags_iff {notes : List Note} {src : Note}
    (hnorm : ∀ n ∈ notes, ∀ t ∈ n.tags, strToLower t = t)
    (hsrcnorm : ∀ t ∈ src.tags, strToLower t = t) (c : Note) :
    c ∈ findByTags notes src.tags ↔ c ∈ notes ∧ ∀ t ∈ src.tags, t ∈ c.tags := by
  unfold findByTags
  rw [List.mem_filter]
  constructor
  · rintro ⟨hmem, hpred⟩
    refine ⟨hmem, ?_⟩
    have hmapc : c.tags.map strToLower = c.tags :=
      map_self_of_fixed _ (hnorm c hmem)
    rw [hmapc] at hpred
    rw [List.all_eq_true] at hpred
    intro t ht
    have := hpred t ht
    rw [hsrcnorm t ht] at this
    simpa using this
  · rintro ⟨hmem, hall⟩
    refine ⟨hmem, ?_⟩
    have hmapc : c.tags.map strToLower = c.tags :=
      map_self_of_fixed _ (hnorm c hmem)
    rw [hmapc, List.all_eq_true]
    intro t ht
    rw [hsrcnorm t ht]
    simpa using hall t ht

/-- Claim C1, amended — recommendation merge policy under the composed
repository.  The tag strategy scores exactly the candidates that hold ALL
of the source's tags (the vault adapter's `findByTags` uses `tags.every`,
not at-least-one): such a candidate gets `freshTagItem`, whose score is
`|matchedTags| / max(|sourceTags|, 1)`; a candidate missing any source tag
gets nothing from the tag strategy.  A graph-connected candidate that the
tag strategy did not score gets the fixed score `0.8`; when both strategies
contribute, the merged score is the maximum of the two contributions and
the reasons list holds exactly one shared-tags entry and exactly one
direct-link entry, even with duplicate graph connections. -/
theorem claim_C1_amended (notes : List Note) (graph : String → List String)
    (src : Note) (hnd : (notes.map (fun n => n.id)).Nodup)
    (hnorm : ∀ n ∈ notes, ∀ t ∈ n.tags, strToLower t = t)
    (hsrcnorm : ∀ t ∈ src.tags, strToLower t = t) :
    let m1 := addTagBasedRecommendations notes src []
    let m2 := addGraphBasedRecommendations notes graph src m1
    (∀ c ∈ notes, c.id ≠ src.id → src.tags ≠ [] →
      (∀ t ∈ src.tags, t ∈ c.tags) →
      rmFind m1 c.id = some (freshTagItem src c)) ∧
    (∀ c ∈ notes, (∃ t ∈ src.tags, t ∉ c.tags) → rmFind m1 c.id = none) ∧
    (∀ c : Note, findById notes c.id = some c → c.id ≠ src.id →
      c.id ∈ graph src.id → rmFind m1 c.id = none →
      rmFind m2 c.id = some (freshGraphItem c)) ∧
    (∀ c ∈ notes, c.id ≠ src.id → src.tags ≠ [] →
      (∀ t ∈ src.tags, t ∈ c.tags) → c.id ∈ graph src.id →
      rmFind m2 c.id = some
        { freshTagItem src c with
          score := max (freshTagItem src c).score (8 / 10)
          reasons := [sharedTagsReason
              (c.tags.filter (fun tag => src.tags.contains tag)),
            directLinkReason] } ∧
      ([sharedTagsReason (c.tags.filter (fun tag => src.tags.contains tag)),
          directLinkReason].countP (fun s => strIncludes s "Shared tags") = 1) ∧
      ([sharedTagsReason (c.tags.filter (fun tag => src.tags.contains tag)),
          directLinkReason].countP (fun s => strIncludes s "Direct link") = 1)) := by
  intro m1 m2
  have hrelnd : ((findByTags notes src.tags).map (fun n => n.id)).Nodup :=
    ((List.filter_sublist _).map _).nodup hnd
  have ha : ∀ c ∈ notes, c.id ≠ src.id → src.tags ≠ [] →
      (∀ t ∈ src.tags, t ∈ c.tags) →
      rmFind m1 c.id = some (freshTagItem src c) := by
    intro c hc hcs hne hall
    show rmFind (addTagBasedRecommendations notes src []) c.id = _
    unfold addTagBasedRecommendations
    rw [if_neg (by simpa [List.isEmpty_iff] using hne)]
    rw [tagFold_fresh (findByTags notes src.tags) [] hrelnd (fun _ _ => rfl),
      List.nil_append]
    exact rmFind_tagItems_some _ c hrelnd
      ((mem_findByTags_iff hnorm hsrcnorm c).mpr ⟨hc, hall⟩) hcs
  have hb : ∀ c ∈ notes, (∃ t ∈ src.tags, t ∉ c.tags) →
      rmFind m1 c.id = none := by
    intro c hc ⟨t, ht, hnt⟩
    show rmFind (addTagBasedRecommendations notes src []) c.id = none
    unfold addTagBasedRecommendations
    by_cases hempty : src.tags.isEmpty
    · rw [if_pos hempty]
      rfl
    · rw [if_neg hempty]
      rw [tagFold_fresh (findByTags notes src.tags) [] hrelnd (fun _ _ => rfl),
        List.nil_append]
      apply rmFind_tagItems_none
      intro hmemid
      obtain ⟨x, hx, hxid⟩ := List.mem_map.mp hmemid
      have hxnotes : x ∈ notes := List.mem_of_mem_filter hx
      have hxc : x = c := List.inj_on_of_nodup_map hnd hxnotes hc hxid
      subst hxc
      have := ((mem_findByTags_iff hnorm hsrcnorm x).mp hx).2 t ht
      exact hnt this
  have hc' : ∀ c : Note, findById notes c.id = some c → c.id ≠ src.id →
      c.id ∈ graph src.id → rmFind m1 c.id = none →
      rmFind m2 c.id = some (freshGraphItem c) := by
    intro c hfind hcs hconn hnone
    show rmFind (addGraphBasedRecommendations notes graph src m1) c.id = _
    unfold addGraphBasedRecommendations
    apply graphFold_progress hfind hcs (mergeGraphItem_fresh c) _ m1 hconn
    rw [hnone]
  refine ⟨ha, hb, hc', ?_⟩
  intro c hc hcs hne hall hconn
  have hmatched_norm : ∀ t ∈ c.tags.filter (fun tag => src.tags.contains tag),
      strToLower t = t := fun t ht => hnorm c hc t (List.mem_of_mem_filter ht)
  have hnodirect : strIncludes
      (sharedTagsReason (c.tags.filter (fun tag => src.tags.contains tag)))
      "Direct link" = false := sharedTagsReason_no_direct hmatched_norm
  have hdl : strIncludes directLinkReason "Direct link" = true := by decide
  have hdlshared : strIncludes directLinkReason "Shared tags" = false := by decide
  have hshared : strIncludes
      (sharedTagsReason (c.tags.filter (fun tag => src.tags.contains tag)))
      "Shared tags" = true := sharedTagsReason_includes _
  have hfirst : mergeGraphItem (freshTagItem src c) =
      { freshTagItem src c with
        score := max (freshTagItem src c).score (8 / 10)
        reasons := [sharedTagsReason
            (c.tags.filter (fun tag => src.tags.contains tag)),
          directLinkReason] } := by
    unfold mergeGraphItem
    dsimp only [freshTagItem]
    rw [List.any_cons, List.any_nil, Bool.or_false, hnodirect]
    rfl
  have hfix : mergeGraphItem
      { freshTagItem src c with
        score := max (freshTagItem src c).score (8 / 10)
        reasons := [sharedTagsReason
            (c.tags.filter (fun tag => src.tags.contains tag)),
          directLinkReason] } =
      { freshTagItem src c with
        score := max (freshTagItem src c).score (8 / 10)
        reasons := [sharedTagsReason
            (c.tags.filter (fun tag => src.tags.contains tag)),
          directLinkReason] } := by
    unfold mergeGraphItem
    dsimp only
    rw [List.any_cons, List.any_cons, List.any_nil, hdl]
    have hcond : (strIncludes
        (sharedTagsReason (c.tags.filter (fun tag => src.tags.contains tag)))
        "Direct link" || (true || false)) = true := by
      simp
    rw [hcond, if_pos rfl, max_assoc, max_self]
  refine ⟨?_, ?_, ?_⟩
  · show rmFind (addGraphBasedRecommendations notes graph src m1) c.id = _
    unfold addGraphBasedRecommendations
    apply graphFold_progress (findById_of_mem_nodup hnd hc) hcs hfix _ m1 hconn
    rw [ha c hc hcs hne hall]
    simpa using hfirst
  · simp only [List.countP_cons, List.countP_nil, hshared, hdlshared]
    simp
  · simp only [List.countP_cons, List.countP_nil, hnodirect, hdl]
    simp

/-- Witness for C4's amended theorem: a positive hint of 2000 ms yields
`min(2500, 30000)`; a non-positive hint behaves as no hint; the no-hint
delay is exponential-with-jitter. -/
theorem claim_C4_amended_witness :
    calculateDelay 1 1000 30000 (1 / 5) (some 2000) (1 / 2) =
      min ((2000 : ℚ) + 500) 30000 ∧
    calculateDelay 1 1000 30000 (1 / 5) (some (-5)) (1 / 2) =
      calculateDelay 1 1000 30000 (1 / 5) none (1 / 2) ∧
    (∃ jitter : ℚ, 0 ≤ jitter ∧ jitter ≤ (1 / 5) * (1000 * 2 ^ 1) ∧
      calculateDelay 1 1000 30000 (1 / 5) none (1 / 2) =
        min ((1000 : ℚ) * 2 ^ 1 + jitter) 30000) := by
  obtain ⟨h1, h2, h3⟩ := claim_C4_amended 1 1000 30000 (1 / 5) (1 / 2)
    (by norm_num) (by norm_num) (by norm_num) (by norm_num)
  exact ⟨h1 2000 (by norm_num), h2 (-5) (by norm_num), h3⟩

/-- Witness for C5: empty store is stale; after `save`, the saved hash is
fresh and any other hash is stale. -/
theorem claim_C5_staleness_witness :
    (isStale [] "note-1" "hash1" = true ↔
      ([] : List StoredEmbedding).find? (fun s => s.noteId == "note-1") = none ∨
      ∃ stored, ([] : List StoredEmbedding).find? (fun s => s.noteId == "note-1") =
          some stored ∧ stored.contentHash ≠ "hash1") ∧
    isStale (storeSave [] c5Record) c5Record.noteId c5Record.contentHash = false ∧
    isStale (storeSave [] c5Record) c5Record.noteId "hash2" = true :=
  claim_C5_staleness [] "note-1" "hash1" "hash2" c5Record (by decide)

/-- Witness for C9: symmetry, the zero-magnitude case, and the
dimension-mismatch error on concrete vectors. -/
theorem claim_C9_cosine_contract_witness :
    cosineSimilarity [1, 2] [2, 1] = cosineSimilarity [2, 1] [1, 2] ∧
    cosineSimilarity [0, 0] [2, 1] = .ok simZero ∧
    cosineSimilarity [1] [2, 1] = .error (dimMismatchMsg 1 2) :=
  ⟨(claim_C9_cosine_contract [1, 2] [2, 1]).1 rfl,
   (claim_C9_cosine_contract [0, 0] [2, 1]).2.1 rfl (Or.inl (by norm_num [dotQ])),
   (claim_C9_cosine_contract [1] [2, 1]).2.2 (by decide)⟩

/-- Witness for C10: whole-batch counts on a concrete run, and the
documented overshoot — 5 items in one batch of size 10 count as 10. -/
theorem claim_C10_approximate_counts_witness :
    (processBatches [0, 1, 2, 3, 4] 10
        (fun b => (Except.ok b.length : Except Unit Nat)) false).1.successCount =
      ((chunkBatches 10 [0, 1, 2, 3, 4]).filterMap
        (fun b => ((fun b => (Except.ok b.length : Except Unit Nat)) b).toOption)).length
        * 10 ∧
    ((processBatches [0, 1, 2, 3, 4] 10
        (fun b => (Except.ok b.length : Except Unit Nat)) false).1.total <
      (processBatches [0, 1, 2, 3, 4] 10
        (fun b => (Except.ok b.length : Except Unit Nat)) false).1.successCount +
      (processBatches [0, 1, 2, 3, 4] 10
        (fun b => (Except.ok b.length : Except Unit Nat)) false).1.failureCount) := by
  obtain ⟨h1, h2, h3, h4⟩ := claim_C10_approximate_counts [0, 1, 2, 3, 4] 10
    (fun b => (Except.ok b.length : Except Unit Nat)) (by norm_num)
  exact ⟨h1, h4⟩

/-- Witness for C2: the spec's worked example — existing score `0.5`,
similarity `0.9`, boosted score `min(1, 0.5 + 0.27) = 0.77`; and a fresh
candidate inserted with the raw similarity. -/
theorem claim_C2_semantic_boost_witness :
    (rmFind (addSemanticRecommendations c2Notes ⟨"202401010000", "S", "s.md", []⟩
        [c2Entry] (.ok [⟨"202401010001", "c.md", 9 / 10⟩])) "202401010001").map
      (fun x => x.score) = some (77 / 100) ∧
    (rmFind (addSemanticRecommendations c2Notes ⟨"202401010000", "S", "s.md", []⟩
        [] (.ok [⟨"202401010001", "c.md", 9 / 10⟩])) "202401010001").map
      (fun x => x.score) = some (9 / 10) := by
  have h := claim_C2_semantic_boost c2Notes ⟨"202401010000", "S", "s.md", []⟩
    [c2Entry] [⟨"202401010001", "c.md", 9 / 10⟩] ⟨"202401010001", "c.md", 9 / 10⟩
    ⟨"202401010001", "C", "c.md", []⟩ (List.mem_singleton.mpr rfl) (by decide)
    (by decide) (by decide)
  have h' := claim_C2_semantic_boost c2Notes ⟨"202401010000", "S", "s.md", []⟩
    [] [⟨"202401010001", "c.md", 9 / 10⟩] ⟨"202401010001", "c.md", 9 / 10⟩
    ⟨"202401010001", "C", "c.md", []⟩ (List.mem_singleton.mpr rfl) (by decide)
    (by decide) (by decide)
  constructor
  · have := h.1 c2Entry rfl
    rw [this]
    norm_num [c2Entry]
  · exact h'.2 (by decide)

/-- Witness for C7: an unresolvable source id yields the typed failure
response; a semantic-strategy error leaves the response equal to the
service-less one, with `success = true`. -/
theorem claim_C7_hard_failure_boundary_witness :
    execute c7EnvMissing c7Req =
      ⟨false, [], "202401010000", some "Source note not found"⟩ ∧
    execute c7Env c7Req = execute { c7Env with svc := none } c7Req ∧
    (execute c7Env c7Req).success = true := by
  have h1 := (claim_C7_hard_failure_boundary c7EnvMissing c7Req).1 rfl
  have h2 := (claim_C7_hard_failure_boundary c7Env c7Req).2 c7Src c7Svc "boom"
    rfl rfl rfl
  exact ⟨h1, h2.1, h2.2⟩

/-- Witness for C3: with 25 items and batch size 10, the second batch
fails; batches 1 and 3 still deliver their results, the error is recorded
under batch index 1, and the final progress report covers all 25 items. -/
theorem claim_C3_batch_isolation_witness :
    (processBatches c3Items 10 c3F false).1.results = [10, 5] ∧
    (processBatches c3Items 10 c3F false).1.errors = [(1, "rate limit")] ∧
    (processBatches c3Items 10 c3F false).1.total = 25 ∧
    (processBatches c3Items 10 c3F false).2.getLast? = some (25, 25) := by
  obtain ⟨h1, h2, h3, h4⟩ := claim_C3_batch_isolation c3Items 10 c3F (by norm_num)
  have hch : chunkBatches 10 c3Items =
      [[0, 1, 2, 3, 4, 5, 6, 7, 8, 9], [10, 11, 12, 13, 14, 15, 16, 17, 18, 19],
       [20, 21, 22, 23, 24]] := by
    rw [show c3Items = 0 :: [1, 2, 3, 4, 5, 6, 7, 8, 9, 10, 11, 12, 13, 14, 15,
      16, 17, 18, 19, 20, 21, 22, 23, 24] from rfl,
      chunkBatches_cons 10 _ _ (by norm_num)]
    norm_num
    rw [chunkBatches_cons 10 _ _ (by norm_num)]
    norm_num
    rw [chunkBatches_cons 10 _ _ (by norm_num)]
    norm_num [chunkBatches_nil]
  refine ⟨?_, ?_, by simpa [c3Items] using h3, ?_⟩
  · rw [h1, hch]
    simp [c3F, Except.toOption]
  · rw [h2, hch]
    decide
  · rw [h4 (by rw [hch]; simp)]
    simp [c3Items]

/-- Witness for C6: with query `[1, 0]` and default options, only the
aligned record (similarity 1 ≥ 0.5) is returned; the opposite record
(similarity -1) is filtered out. -/
theorem claim_C6_findSimilar_contract_witness :
    findSimilar c6Cache [1, 0] none none none =
      .ok [⟨"A", "a.md", cosOk [1, 0] [1, 0]⟩] := by
  obtain ⟨h1, -, -, -, -, -⟩ :=
    claim_C6_findSimilar_contract c6Cache [1, 0] none none none (by decide)
  rw [h1]
  have hA : SimVal.le (SimVal.ofRat ((1 : ℚ) / 2)) (cosOk [1, 0] [1, 0]) = true := by
    norm_num [cosOk, dotQ, SimVal.le, SimVal.ofRat]
  have hB : SimVal.le (SimVal.ofRat ((1 : ℚ) / 2)) (cosOk [1, 0] [-1, 0]) = false := by
    norm_num [cosOk, dotQ, SimVal.le, SimVal.ofRat]
  simp only [c6Cache, Option.getD, List.filter_cons, List.filter_nil]
  norm_num [hA, hB, List.insertionSort]

/-- Witness for C8's amended theorem: the concrete candidate's working-map
entry has its score in `[0, 1]`. -/
theorem claim_C8_amended_witness :
    0 ≤ (freshTagItem c8Src c8Cand).score ∧ (freshTagItem c8Src c8Cand).score ≤ 1 := by
  obtain ⟨h1, h2, h3, h4⟩ := claim_C8_amended c8Env c8Req c8Src rfl
    (by decide) (fun s hs => by simp [c8Env] at hs)
  apply h1
  show freshTagItem c8Src c8Cand ∈ addTagBasedRecommendations c8Env.notes c8Src []
  have hrelnd : ((findByTags c8Env.notes c8Src.tags).map (fun n => n.id)).Nodup := by
    decide
  unfold addTagBasedRecommendations
  rw [if_neg (by decide), tagFold_fresh _ [] hrelnd (fun _ _ => rfl), List.nil_append]
  have : findByTags c8Env.notes c8Src.tags = [c8Src, c8Cand] := by decide
  rw [this]
  simp [c8Src, c8Cand, List.filterMap_cons]

/-- Witness for C1's amended theorem on concrete data: the all-tags
candidate gets the tag item; the partial-overlap note gets nothing; the
graph-only note gets the fixed 0.8 item; the doubly-connected candidate
gets the max-merged score with exactly one reason of each kind. -/
theorem claim_C1_amended_witness :
    rmFind (addTagBasedRecommendations c1Notes c1Src []) c1Cand.id =
      some (freshTagItem c1Src c1Cand) ∧
    rmFind (addTagBasedRecommendations c1Notes c1Src []) c1Part.id = none ∧
    rmFind (addGraphBasedRecommendations c1Notes c1Graph c1Src
        (addTagBasedRecommendations c1Notes c1Src [])) c1G.id =
      some (freshGraphItem c1G) ∧
    rmFind (addGraphBasedRecommendations c1Notes c1Graph c1Src
        (addTagBasedRecommendations c1Notes c1Src [])) c1Cand.id =
      some
        { freshTagItem c1Src c1Cand with
          score := max (freshTagItem c1Src c1Cand).score (8 / 10)
          reasons := [sharedTagsReason
              (c1Cand.tags.filter (fun tag => c1Src.tags.contains tag)),
            directLinkReason] } ∧
    ([sharedTagsReason (c1Cand.tags.filter (fun tag => c1Src.tags.contains tag)),
        directLinkReason].countP (fun s => strIncludes s "Shared tags") = 1) ∧
    ([sharedTagsReason (c1Cand.tags.filter (fun tag => c1Src.tags.contains tag)),
        directLinkReason].countP (fun s => strIncludes s "Direct link") = 1) := by
  obtain ⟨ha, hb, hc, hd⟩ :=
    claim_C1_amended c1Notes c1Graph c1Src (by decide) (by decide) (by decide)
  have hnoneG : rmFind (addTagBasedRecommendations c1Notes c1Src []) c1G.id =
      none := hb c1G (by decide) ⟨"a", by decide, by decide⟩
  obtain ⟨hd1, hd2, hd3⟩ :=
    hd c1Cand (by decide) (by decide) (by decide) (by decide) (by decide)
  exact ⟨ha c1Cand (by decide) (by decide) (by decide) (by decide),
    hb c1Part (by decide) ⟨"b", by decide, by decide⟩,
    hc c1G (by decide) (by decide) (by decide) hnoneG,
    hd1, hd2, hd3⟩
